import Mathlib

/-!
Verification of the Totem graph-analytics engine specification against a
shallow embedding of the repository's code.

The repository's `src/` tree contains the algorithm declarations header
(`src/alg/totem_alg.h`) and the BFS unit tests
(`src/test/totem_bfs_unittest.cc`); the algorithm bodies themselves are not
part of the visible sources.  Following the specification (spec.md), the
missing bodies are modelled here from the spec's own description of the
data model (§3), the engine's round semantics (§4.4), the message-exchange
layer (§4.5) and the algorithm plugins (§4.6).  Constants that do appear in
the header (`PAGE_RANK_ROUNDS = 30`, `PAGE_RANK_DAMPING_FACTOR = 0.85`,
`cost_t = uint16_t`, `INF_COST`) are taken from the header directly.

Machine integers are modelled as `Nat` with explicit reduction modulo
`2 ^ 16` where the `uint16_t` cost type can overflow.  Floating-point rank
values are modelled as exact rationals (`ℚ`), which is the idealised
arithmetic the spec's formulas are written in.
-/

/-- Error kinds of the engine, from spec §7.  The header's `error_t` is a
generic success/failure code; the spec refines failures into these kinds.
`Except error_t` plays the role of the C success-or-failure return. -/
inductive error_t where
  | FormatError
  | ConfigError
  | RoutingError
  | VertexRangeError
  | DeviceError
deriving DecidableEq, Repr

/-- The graph store, from spec §3: a vertex count, a directed flag, the
edge list grouped by source vertex (adjacency), and an optional per-edge
weight array (grouped the same way, used only by weighted algorithms). -/
structure graph_t where
  vertex_count : Nat
  directed : Bool
  adj : List (List Nat)
  weights : List (List Nat)
deriving DecidableEq, Repr

/-- Adjacency list of a vertex (empty for out-of-range ids). -/
def adjOf (g : graph_t) (v : Nat) : List Nat := g.adj.getD v []

/-- Graph-store invariant from spec §3 / §4.1: the adjacency is grouped by
the `vertex_count` source vertices and every neighbor id is in range. -/
def WFgraph (g : graph_t) : Prop :=
  g.adj.length = g.vertex_count ∧
    ∀ l ∈ g.adj, ∀ w ∈ l, w < g.vertex_count

instance (g : graph_t) : Decidable (WFgraph g) := by
  unfold WFgraph; infer_instance

/-- The BFS cost type is `uint16_t` in the header (`typedef uint16_t
cost_t`); `INF_COST` is `(cost_t) INFINITE`, i.e. all bits set. -/
def INF_COST : Nat := 65535

/-- Modulus of the `uint16_t` cost type. -/
def COST_MOD : Nat := 65536

/-!
Frontier-expansion search (BFS), modelled from the spec.

Modelled from the spec: the body of `bfs_cpu` / `bfs_gpu` is not under
`src/`; §4.6 describes the plugin as "frontier-expansion search (cost
array, frontier set, stops when frontier empty)", §4.4 gives the
Jacobi-style round semantics (updates produced in round `r` become visible
at the round boundary), and §4.5 the message aggregation for remote
updates.  A vertex discovered in round `r` receives cost `r + 1`, reduced
modulo the `uint16_t` cost type; undiscovered vertices keep `INF_COST`.

State within a round is threaded as a triple: the cost array (a function
from vertex id to cost), the discovered-this-round frontier mask, and the
outbox of cross-partition messages `(destination vertex, cost value)`.
-/

/-- One edge relaxation: if the target `w` is owned by the executing
partition (`own w = true`) the update is applied in place (only vertices
still at `INF_COST` are discovered); otherwise a message carrying the new
cost value is staged into the outbox, per spec §4.3. -/
def relaxEdge (rp1 : Nat) (own : Nat → Bool)
    (st : (Nat → Nat) × (Nat → Bool) × List (Nat × Nat)) (w : Nat) :
    (Nat → Nat) × (Nat → Bool) × List (Nat × Nat) :=
  let cost := st.1
  let disc := st.2.1
  let out := st.2.2
  if own w then
    if cost w = INF_COST then
      (fun x => if x = w then rp1 else cost x,
       fun x => if x = w then true else disc x, out)
    else st
  else (cost, disc, out ++ [(w, rp1)])

/-- Expand one frontier vertex: relax all of its out-edges. -/
def pushVertex (g : graph_t) (rp1 : Nat) (own : Nat → Bool)
    (st : (Nat → Nat) × (Nat → Bool) × List (Nat × Nat)) (v : Nat) :
    (Nat → Nat) × (Nat → Bool) × List (Nat × Nat) :=
  (adjOf g v).foldl (relaxEdge rp1 own) st

/-- Expand a list of frontier vertices in order. -/
def pushFrontier (g : graph_t) (rp1 : Nat) (own : Nat → Bool)
    (st : (Nat → Nat) × (Nat → Bool) × List (Nat × Nat)) (vs : List Nat) :
    (Nat → Nat) × (Nat → Bool) × List (Nat × Nat) :=
  vs.foldl (pushVertex g rp1 own) st

/-- Vertices of the frontier mask, enumerated in vertex-id order. -/
def frontierList (n : Nat) (f : Nat → Bool) : List Nat :=
  (List.range n).filter f

/-- One global (single-partition) BFS round: every frontier vertex is
expanded, every target is locally owned, so the outbox stays empty. -/
def bfsRound (g : graph_t) (r : Nat) (cost : Nat → Nat) (frontier : Nat → Bool) :
    (Nat → Nat) × (Nat → Bool) :=
  let rp1 := (r + 1) % COST_MOD
  let st := pushFrontier g rp1 (fun _ => true) (cost, fun _ => false, [])
    (frontierList g.vertex_count frontier)
  (st.1, st.2.1)

/-- The BFS round loop: stops when the frontier is empty (spec §4.4
termination for frontier-based search) or the fuel — one unit per possible
round, `vertex_count` in total — is exhausted. -/
def bfsLoop (g : graph_t) : Nat → Nat → (Nat → Nat) → (Nat → Bool) → (Nat → Nat)
  | 0, _, cost, _ => cost
  | fuel + 1, r, cost, frontier =>
    if (frontierList g.vertex_count frontier).isEmpty then cost
    else
      let st := bfsRound g r cost frontier
      bfsLoop g fuel (r + 1) st.1 st.2

/-- BFS entry point.  Per spec §7, a source vertex id out of bounds is
rejected with `VertexRangeError` before any partitioning or compute
occurs; otherwise the cost array (indexed by global vertex id, spec §6)
is returned. -/
def bfs (g : graph_t) (src : Nat) : Except error_t (List Nat) :=
  if src < g.vertex_count then
    Except.ok ((List.range g.vertex_count).map
      (bfsLoop g g.vertex_count 0
        (fun v => if v = src then 0 else INF_COST)
        (fun v => v == src)))
  else Except.error error_t.VertexRangeError

/-- The header declares CPU and GPU variants of the same search; the spec
abstracts device placement away (§1, §9), so both denote the same
frontier-expansion search. -/
def bfs_cpu (g : graph_t) (src : Nat) : Except error_t (List Nat) := bfs g src

/-- GPU variant of BFS; see `bfs_cpu`. -/
def bfs_gpu (g : graph_t) (src : Nat) : Except error_t (List Nat) := bfs g src

/-!
Partitioned (hybrid) BFS, modelled from the spec §§4.2-4.5: the vertex set
is split by a partition-assignment map `part` into `k` partitions; in each
round every partition expands the frontier vertices it owns, applying
updates to owned targets directly and staging `(vertex, value)` messages
for remote targets; the exchange layer then delivers all messages, where a
message discovers its target exactly when the target is still at
`INF_COST` (all messages of one round carry the same value `r + 1`, so the
min-aggregation of spec §4.5 degenerates to first-write-wins).
-/

/-- Deliver the flushed outboxes: each message discovers its destination
vertex if that vertex is still undiscovered. -/
def exchangeDeliver (msgs : List (Nat × Nat))
    (st : (Nat → Nat) × (Nat → Bool)) : (Nat → Nat) × (Nat → Bool) :=
  msgs.foldl
    (fun st m =>
      if st.1 m.1 = INF_COST then
        (fun x => if x = m.1 then m.2 else st.1 x,
         fun x => if x = m.1 then true else st.2 x)
      else st)
    st

/-- Compute step of one partition `p`: expand the frontier vertices owned
by `p`, applying updates to owned targets and staging messages for remote
targets. -/
def partPush (g : graph_t) (rp1 : Nat) (part : Nat → Nat) (f : Nat → Bool)
    (st : (Nat → Nat) × (Nat → Bool) × List (Nat × Nat)) (p : Nat) :
    (Nat → Nat) × (Nat → Bool) × List (Nat × Nat) :=
  pushFrontier g rp1 (fun w => part w == p) st
    (frontierList g.vertex_count (fun v => f v && part v == p))

/-- One hybrid round: each of the `k` partitions expands its share of the
frontier (compute step), then the message layer delivers all staged
cross-partition updates (exchange step). -/
def pbfsRound (g : graph_t) (k : Nat) (part : Nat → Nat) (r : Nat)
    (cost : Nat → Nat) (frontier : Nat → Bool) :
    (Nat → Nat) × (Nat → Bool) :=
  let rp1 := (r + 1) % COST_MOD
  let st := (List.range k).foldl (partPush g rp1 part frontier)
    (cost, fun _ => false, [])
  exchangeDeliver st.2.2 (st.1, st.2.1)

/-- Round loop of the hybrid execution; the global frontier is the union
of the per-partition frontiers, and the loop stops when it is empty. -/
def pbfsLoop (g : graph_t) (k : Nat) (part : Nat → Nat) :
    Nat → Nat → (Nat → Nat) → (Nat → Bool) → (Nat → Nat)
  | 0, _, cost, _ => cost
  | fuel + 1, r, cost, frontier =>
    if (frontierList g.vertex_count frontier).isEmpty then cost
    else
      let st := pbfsRound g k part r cost frontier
      pbfsLoop g k part fuel (r + 1) st.1 st.2

/-- Hybrid BFS entry point: `k` partitions, vertex-to-partition assignment
`part`.  The source-range check happens before any partitioning, per spec
§7.  (The header's `bfs_hybrid` reads the graph and partition plan from
the engine context; here they are explicit arguments.) -/
def bfs_hybrid (k : Nat) (part : Nat → Nat) (g : graph_t) (src : Nat) :
    Except error_t (List Nat) :=
  if src < g.vertex_count then
    Except.ok ((List.range g.vertex_count).map
      (pbfsLoop g k part g.vertex_count 0
        (fun v => if v = src then 0 else INF_COST)
        (fun v => v == src)))
  else Except.error error_t.VertexRangeError

/-!
Pointwise characterization of one round.  These lemmas describe the effect
of the fold-based compute and exchange steps on each vertex, and are the
backbone of both the partitioning-determinism proof (spec §4.4) and the
concrete scenario proofs.
-/


theorem relaxEdge_remote (rp1 : Nat) (own : Nat → Bool) (c : Nat → Nat)
    (d : Nat → Bool) (out : List (Nat × Nat)) (w : Nat) (h : own w = false) :
    relaxEdge rp1 own (c, d, out) w = (c, d, out ++ [(w, rp1)]) := by
  unfold relaxEdge; simp [h]

theorem relaxEdge_hit (rp1 : Nat) (own : Nat → Bool) (c : Nat → Nat)
    (d : Nat → Bool) (out : List (Nat × Nat)) (w : Nat) (h : own w = true)
    (hc : c w = INF_COST) :
    relaxEdge rp1 own (c, d, out) w =
      (fun x => if x = w then rp1 else c x,
       fun x => if x = w then true else d x, out) := by
  unfold relaxEdge; simp [h, hc]

theorem relaxEdge_skip (rp1 : Nat) (own : Nat → Bool) (c : Nat → Nat)
    (d : Nat → Bool) (out : List (Nat × Nat)) (w : Nat) (h : own w = true)
    (hc : ¬ c w = INF_COST) :
    relaxEdge rp1 own (c, d, out) w = (c, d, out) := by
  unfold relaxEdge; simp [h, hc]

theorem relaxList_cost (rp1 : Nat) (own : Nat → Bool) (ws : List Nat) :
    ∀ (c : Nat → Nat) (d : Nat → Bool) (out : List (Nat × Nat)) (w : Nat),
    (ws.foldl (relaxEdge rp1 own) (c, d, out)).1 w =
      if own w = true ∧ c w = INF_COST ∧ w ∈ ws then rp1 else c w := by
  induction ws with
  | nil => intro c d out w; simp
  | cons w' ws ih =>
    intro c d out w
    by_cases how' : own w' = true
    · by_cases hc' : c w' = INF_COST
      · rw [List.foldl_cons, relaxEdge_hit rp1 own c d out w' how' hc', ih]
        by_cases hw : w = w'
        · subst hw
          by_cases hr : rp1 = INF_COST
          · simp [how', hc', hr]
          · simp [how', hc', hr]
        · simp [List.mem_cons, hw]
      · rw [List.foldl_cons, relaxEdge_skip rp1 own c d out w' how' hc', ih]
        by_cases hw : w = w'
        · subst hw; simp [hc']
        · simp [List.mem_cons, hw]
    · simp only [Bool.not_eq_true] at how'
      rw [List.foldl_cons, relaxEdge_remote rp1 own c d out w' how', ih]
      by_cases hw : w = w'
      · subst hw; simp [how']
      · simp [List.mem_cons, hw]

theorem relaxList_disc (rp1 : Nat) (own : Nat → Bool) (ws : List Nat) :
    ∀ (c : Nat → Nat) (d : Nat → Bool) (out : List (Nat × Nat)) (w : Nat),
    ((ws.foldl (relaxEdge rp1 own) (c, d, out)).2.1 w = true) ↔
      (d w = true ∨ (own w = true ∧ c w = INF_COST ∧ w ∈ ws)) := by
  induction ws with
  | nil => intro c d out w; simp
  | cons w' ws ih =>
    intro c d out w
    by_cases how' : own w' = true
    · by_cases hc' : c w' = INF_COST
      · rw [List.foldl_cons, relaxEdge_hit rp1 own c d out w' how' hc', ih]
        by_cases hw : w = w'
        · subst hw
          by_cases hr : rp1 = INF_COST
          · simp [how', hc', hr]
          · simp [how', hc', hr]
        · simp [List.mem_cons, hw]
      · rw [List.foldl_cons, relaxEdge_skip rp1 own c d out w' how' hc', ih]
        by_cases hw : w = w'
        · subst hw; simp [hc']
        · simp [List.mem_cons, hw]
    · simp only [Bool.not_eq_true] at how'
      rw [List.foldl_cons, relaxEdge_remote rp1 own c d out w' how', ih]
      by_cases hw : w = w'
      · subst hw; simp [how']
      · simp [List.mem_cons, hw]

theorem relaxList_out (rp1 : Nat) (own : Nat → Bool) (ws : List Nat) :
    ∀ (c : Nat → Nat) (d : Nat → Bool) (out : List (Nat × Nat)),
    (ws.foldl (relaxEdge rp1 own) (c, d, out)).2.2 =
      out ++ (ws.filter (fun w => !own w)).map (fun w => (w, rp1)) := by
  induction ws with
  | nil => intro c d out; simp
  | cons w' ws ih =>
    intro c d out
    by_cases how' : own w' = true
    · by_cases hc' : c w' = INF_COST
      · rw [List.foldl_cons, relaxEdge_hit rp1 own c d out w' how' hc', ih]
        simp [how']
      · rw [List.foldl_cons, relaxEdge_skip rp1 own c d out w' how' hc', ih]
        simp [how']
    · simp only [Bool.not_eq_true] at how'
      rw [List.foldl_cons, relaxEdge_remote rp1 own c d out w' how', ih]
      simp [how']

theorem pushList_cost (g : graph_t) (rp1 : Nat) (own : Nat → Bool) :
    ∀ (vs : List Nat) (c : Nat → Nat) (d : Nat → Bool) (out : List (Nat × Nat))
      (w : Nat),
    (vs.foldl (pushVertex g rp1 own) (c, d, out)).1 w =
      if own w = true ∧ c w = INF_COST ∧ ∃ v ∈ vs, w ∈ adjOf g v then rp1
      else c w := by
  intro vs
  induction vs with
  | nil => intro c d out w; simp
  | cons v vs ih =>
    intro c d out w
    rw [List.foldl_cons]
    rcases hst : pushVertex g rp1 own (c, d, out) v with ⟨c1, d1, out1⟩
    rw [ih c1 d1 out1 w]
    have hc1 : ∀ x, c1 x =
        if own x = true ∧ c x = INF_COST ∧ x ∈ adjOf g v then rp1 else c x := by
      intro x
      have h := relaxList_cost rp1 own (adjOf g v) c d out x
      rw [show (adjOf g v).foldl (relaxEdge rp1 own) (c, d, out) = (c1, d1, out1)
        from hst] at h
      exact h
    rw [hc1 w]
    by_cases how : own w = true
    · by_cases hc : c w = INF_COST
      · by_cases hmem : w ∈ adjOf g v
        · by_cases hr : rp1 = INF_COST
          · simp [how, hc, hmem, hr]
          · simp [how, hc, hmem, hr]
        · by_cases hex : ∃ u ∈ vs, w ∈ adjOf g u
          · simp [how, hc, hmem, hex]
          · simp [how, hc, hmem, hex]
      · simp [how, hc]
    · simp [how]

theorem pushList_disc (g : graph_t) (rp1 : Nat) (own : Nat → Bool) :
    ∀ (vs : List Nat) (c : Nat → Nat) (d : Nat → Bool) (out : List (Nat × Nat))
      (w : Nat),
    ((vs.foldl (pushVertex g rp1 own) (c, d, out)).2.1 w = true) ↔
      (d w = true ∨
        (own w = true ∧ c w = INF_COST ∧ ∃ v ∈ vs, w ∈ adjOf g v)) := by
  intro vs
  induction vs with
  | nil => intro c d out w; simp
  | cons v vs ih =>
    intro c d out w
    rw [List.foldl_cons]
    rcases hst : pushVertex g rp1 own (c, d, out) v with ⟨c1, d1, out1⟩
    rw [ih c1 d1 out1 w]
    have hc1 : ∀ x, c1 x =
        if own x = true ∧ c x = INF_COST ∧ x ∈ adjOf g v then rp1 else c x := by
      intro x
      have h := relaxList_cost rp1 own (adjOf g v) c d out x
      rw [show (adjOf g v).foldl (relaxEdge rp1 own) (c, d, out) = (c1, d1, out1)
        from hst] at h
      exact h
    have hd1 : ∀ x, (d1 x = true) ↔
        (d x = true ∨ (own x = true ∧ c x = INF_COST ∧ x ∈ adjOf g v)) := by
      intro x
      have h := relaxList_disc rp1 own (adjOf g v) c d out x
      rw [show (adjOf g v).foldl (relaxEdge rp1 own) (c, d, out) = (c1, d1, out1)
        from hst] at h
      exact h
    rw [hc1 w, hd1 w]
    by_cases how : own w = true
    · by_cases hc : c w = INF_COST
      · by_cases hmem : w ∈ adjOf g v
        · by_cases hr : rp1 = INF_COST
          · simp [how, hc, hmem, hr]
          · simp [how, hc, hmem, hr]
        · by_cases hex : ∃ u ∈ vs, w ∈ adjOf g u
          · simp [how, hc, hmem, hex]
          · simp [how, hc, hmem, hex]
      · simp [how, hc]
    · simp [how]

theorem pushList_out (g : graph_t) (rp1 : Nat) (own : Nat → Bool) :
    ∀ (vs : List Nat) (c : Nat → Nat) (d : Nat → Bool) (out : List (Nat × Nat)),
    (vs.foldl (pushVertex g rp1 own) (c, d, out)).2.2 =
      out ++ vs.flatMap
        (fun v => ((adjOf g v).filter (fun w => !own w)).map
          (fun w => (w, rp1))) := by
  intro vs
  induction vs with
  | nil => intro c d out; simp
  | cons v vs ih =>
    intro c d out
    rw [List.foldl_cons]
    rcases hst : pushVertex g rp1 own (c, d, out) v with ⟨c1, d1, out1⟩
    rw [ih c1 d1 out1]
    have hout1 : out1 =
        out ++ ((adjOf g v).filter (fun w => !own w)).map (fun w => (w, rp1)) := by
      have h := relaxList_out rp1 own (adjOf g v) c d out
      rw [show (adjOf g v).foldl (relaxEdge rp1 own) (c, d, out) = (c1, d1, out1)
        from hst] at h
      exact h
    rw [hout1]
    simp [List.flatMap_cons, List.append_assoc]

theorem WF_adj_lt {g : graph_t} (hwf : WFgraph g) {v w : Nat}
    (hv : v < g.vertex_count) (hw : w ∈ adjOf g v) : w < g.vertex_count := by
  obtain ⟨hlen, hrange⟩ := hwf
  have hv' : v < g.adj.length := by omega
  have : adjOf g v ∈ g.adj := by
    unfold adjOf
    rw [List.getD_eq_getElem?_getD, List.getElem?_eq_getElem hv']
    exact List.getElem_mem hv'
  exact hrange _ this w hw

theorem exists_mem_frontierList {n : Nat} {f : Nat → Bool} {P : Nat → Prop} :
    (∃ v ∈ frontierList n f, P v) ↔ (∃ v, v < n ∧ f v = true ∧ P v) := by
  unfold frontierList
  constructor
  · rintro ⟨v, hv, hp⟩
    rw [List.mem_filter, List.mem_range] at hv
    exact ⟨v, hv.1, hv.2, hp⟩
  · rintro ⟨v, hv, hf, hp⟩
    exact ⟨v, List.mem_filter.mpr ⟨List.mem_range.mpr hv, hf⟩, hp⟩

theorem bfsRound_cost (g : graph_t) (r : Nat) (c : Nat → Nat)
    (f : Nat → Bool) (w : Nat) :
    (bfsRound g r c f).1 w =
      if c w = INF_COST ∧
          (∃ v, v < g.vertex_count ∧ f v = true ∧ w ∈ adjOf g v) then
        (r + 1) % COST_MOD
      else c w := by
  unfold bfsRound
  have h := pushList_cost g ((r + 1) % COST_MOD) (fun _ => true)
    (frontierList g.vertex_count f) c (fun _ => false) [] w
  simp only [pushFrontier] at *
  rw [h]
  simp [exists_mem_frontierList]

theorem bfsRound_disc (g : graph_t) (r : Nat) (c : Nat → Nat)
    (f : Nat → Bool) (w : Nat) :
    ((bfsRound g r c f).2 w = true) ↔
      (c w = INF_COST ∧
        (∃ v, v < g.vertex_count ∧ f v = true ∧ w ∈ adjOf g v)) := by
  unfold bfsRound
  have h := pushList_disc g ((r + 1) % COST_MOD) (fun _ => true)
    (frontierList g.vertex_count f) c (fun _ => false) [] w
  simp only [pushFrontier] at *
  rw [h]
  simp [exists_mem_frontierList]

theorem exchangeDeliver_cons (m : Nat × Nat) (ms : List (Nat × Nat))
    (c : Nat → Nat) (d : Nat → Bool) :
    exchangeDeliver (m :: ms) (c, d) =
      exchangeDeliver ms
        (if c m.1 = INF_COST then
          (fun x => if x = m.1 then m.2 else c x,
           fun x => if x = m.1 then true else d x)
        else (c, d)) := rfl

theorem exchangeDeliver_cost (rp1 : Nat) :
    ∀ (msgs : List (Nat × Nat)), (∀ m ∈ msgs, m.2 = rp1) →
    ∀ (c : Nat → Nat) (d : Nat → Bool) (w : Nat),
    (exchangeDeliver msgs (c, d)).1 w =
      if c w = INF_COST ∧ ∃ m ∈ msgs, m.1 = w then rp1 else c w := by
  intro msgs
  induction msgs with
  | nil => intro _ c d w; simp [exchangeDeliver]
  | cons m ms ih =>
    intro hall c d w
    have hm : m.2 = rp1 := hall m (List.mem_cons_self m ms)
    have hall' : ∀ m' ∈ ms, m'.2 = rp1 := fun m' hm' =>
      hall m' (List.mem_cons_of_mem m hm')
    rw [exchangeDeliver_cons]
    by_cases hcm : c m.1 = INF_COST
    · rw [if_pos hcm, ih hall']
      by_cases hw : w = m.1
      · subst hw
        by_cases hr : rp1 = INF_COST
        · simp [hcm, hm, hr]
        · simp [hcm, hm, hr]
      · by_cases hex : ∃ m' ∈ ms, m'.1 = w
        · simp [Ne.symm hw, hw, hex]
        · simp [Ne.symm hw, hw, hex]
    · rw [if_neg hcm, ih hall']
      by_cases hw : w = m.1
      · subst hw; simp [hcm]
      · by_cases hex : ∃ m' ∈ ms, m'.1 = w
        · simp [Ne.symm hw, hw, hex]
        · simp [Ne.symm hw, hw, hex]

theorem exchangeDeliver_disc (rp1 : Nat) :
    ∀ (msgs : List (Nat × Nat)), (∀ m ∈ msgs, m.2 = rp1) →
    ∀ (c : Nat → Nat) (d : Nat → Bool) (w : Nat),
    ((exchangeDeliver msgs (c, d)).2 w = true) ↔
      (d w = true ∨ (c w = INF_COST ∧ ∃ m ∈ msgs, m.1 = w)) := by
  intro msgs
  induction msgs with
  | nil => intro _ c d w; simp [exchangeDeliver]
  | cons m ms ih =>
    intro hall c d w
    have hall' : ∀ m' ∈ ms, m'.2 = rp1 := fun m' hm' =>
      hall m' (List.mem_cons_of_mem m hm')
    rw [exchangeDeliver_cons]
    by_cases hcm : c m.1 = INF_COST
    · rw [if_pos hcm, ih hall']
      by_cases hw : w = m.1
      · subst hw; simp [hcm]
      · by_cases hex : ∃ m' ∈ ms, m'.1 = w
        · simp [Ne.symm hw, hw, hex]
        · simp [Ne.symm hw, hw, hex]
    · rw [if_neg hcm, ih hall']
      by_cases hw : w = m.1
      · subst hw; simp [hcm]
      · by_cases hex : ∃ m' ∈ ms, m'.1 = w
        · simp [Ne.symm hw, hw, hex]
        · simp [Ne.symm hw, hw, hex]

theorem partPush_cost (g : graph_t) (rp1 : Nat) (part : Nat → Nat)
    (f : Nat → Bool) (c : Nat → Nat) (d : Nat → Bool) (out : List (Nat × Nat))
    (p : Nat) (x : Nat) :
    (partPush g rp1 part f (c, d, out) p).1 x =
      if part x = p ∧ c x = INF_COST ∧
          (∃ v, v < g.vertex_count ∧ f v = true ∧ part v = p ∧ x ∈ adjOf g v)
        then rp1 else c x := by
  unfold partPush
  have h := pushList_cost g rp1 (fun w => part w == p)
    (frontierList g.vertex_count (fun v => f v && part v == p)) c d out x
  simp only [pushFrontier]
  rw [h]
  refine if_congr ?_ rfl rfl
  simp only [beq_iff_eq, exists_mem_frontierList, Bool.and_eq_true]
  tauto

theorem partPush_disc (g : graph_t) (rp1 : Nat) (part : Nat → Nat)
    (f : Nat → Bool) (c : Nat → Nat) (d : Nat → Bool) (out : List (Nat × Nat))
    (p : Nat) (x : Nat) :
    ((partPush g rp1 part f (c, d, out) p).2.1 x = true) ↔
      (d x = true ∨ (part x = p ∧ c x = INF_COST ∧
        (∃ v, v < g.vertex_count ∧ f v = true ∧ part v = p ∧ x ∈ adjOf g v))) := by
  unfold partPush
  have h := pushList_disc g rp1 (fun w => part w == p)
    (frontierList g.vertex_count (fun v => f v && part v == p)) c d out x
  simp only [pushFrontier]
  rw [h]
  simp only [beq_iff_eq, exists_mem_frontierList, Bool.and_eq_true]
  tauto

theorem partPush_out_mem (g : graph_t) (rp1 : Nat) (part : Nat → Nat)
    (f : Nat → Bool) (c : Nat → Nat) (d : Nat → Bool) (out : List (Nat × Nat))
    (p : Nat) (m : Nat × Nat) :
    (m ∈ (partPush g rp1 part f (c, d, out) p).2.2) ↔
      (m ∈ out ∨ (m.2 = rp1 ∧
        ∃ v, v < g.vertex_count ∧ f v = true ∧ part v = p ∧
          m.1 ∈ adjOf g v ∧ ¬ part m.1 = p)) := by
  unfold partPush
  have h := pushList_out g rp1 (fun w => part w == p)
    (frontierList g.vertex_count (fun v => f v && part v == p)) c d out
  simp only [pushFrontier]
  rw [h]
  simp only [List.mem_append, List.mem_flatMap, List.mem_map, List.mem_filter]
  constructor
  · rintro (hout | ⟨v, hv, w, ⟨hw, hown⟩, hm⟩)
    · exact Or.inl hout
    · right
      rw [frontierList, List.mem_filter, List.mem_range] at hv
      obtain ⟨hvn, hvf⟩ := hv
      rw [Bool.and_eq_true, beq_iff_eq] at hvf
      refine ⟨by rw [← hm], v, hvn, hvf.1, hvf.2, ?_, ?_⟩
      · rw [← hm]; exact hw
      · rw [← hm]
        simpa using hown
  · rintro (hout | ⟨hm2, v, hvn, hvf, hvp, hw, hown⟩)
    · exact Or.inl hout
    · right
      refine ⟨v, ?_, m.1, ⟨hw, by simpa using hown⟩, ?_⟩
      · rw [frontierList, List.mem_filter, List.mem_range]
        exact ⟨hvn, by rw [Bool.and_eq_true, beq_iff_eq]; exact ⟨hvf, hvp⟩⟩
      · rw [← hm2]

theorem partsFold_cost (g : graph_t) (rp1 : Nat) (part : Nat → Nat)
    (f : Nat → Bool) :
    ∀ (ps : List Nat) (c : Nat → Nat) (d : Nat → Bool) (out : List (Nat × Nat))
      (x : Nat),
    ((ps.foldl (partPush g rp1 part f) (c, d, out))).1 x =
      if c x = INF_COST ∧ part x ∈ ps ∧
          (∃ v, v < g.vertex_count ∧ f v = true ∧ part v = part x ∧
            x ∈ adjOf g v)
        then rp1 else c x := by
  intro ps
  induction ps with
  | nil => intro c d out x; simp
  | cons p ps ih =>
    intro c d out x
    rw [List.foldl_cons]
    rcases hst : partPush g rp1 part f (c, d, out) p with ⟨c1, d1, out1⟩
    rw [ih c1 d1 out1 x]
    have hc1 : ∀ y, c1 y =
        if part y = p ∧ c y = INF_COST ∧
            (∃ v, v < g.vertex_count ∧ f v = true ∧ part v = p ∧ y ∈ adjOf g v)
          then rp1 else c y := by
      intro y
      have h := partPush_cost g rp1 part f c d out p y
      rw [hst] at h
      exact h
    rw [hc1 x]
    by_cases hpx : part x = p
    · subst hpx
      by_cases hc : c x = INF_COST
      · by_cases hE : ∃ v, v < g.vertex_count ∧ f v = true ∧
            part v = part x ∧ x ∈ adjOf g v
        · by_cases hr : rp1 = INF_COST
          · simp [hc, hE, hr]
          · simp [hc, hE, hr]
        · simp [hc, hE]
      · simp [hc]
    · by_cases hc : c x = INF_COST
      · by_cases hmem : part x ∈ ps
        · simp [hpx, hc, hmem, List.mem_cons]
        · simp [hpx, hc, hmem, List.mem_cons]
      · simp [hpx, hc]

theorem partsFold_disc (g : graph_t) (rp1 : Nat) (part : Nat → Nat)
    (f : Nat → Bool) :
    ∀ (ps : List Nat) (c : Nat → Nat) (d : Nat → Bool) (out : List (Nat × Nat))
      (x : Nat),
    (((ps.foldl (partPush g rp1 part f) (c, d, out))).2.1 x = true) ↔
      (d x = true ∨ (c x = INF_COST ∧ part x ∈ ps ∧
        (∃ v, v < g.vertex_count ∧ f v = true ∧ part v = part x ∧
          x ∈ adjOf g v))) := by
  intro ps
  induction ps with
  | nil => intro c d out x; simp
  | cons p ps ih =>
    intro c d out x
    rw [List.foldl_cons]
    rcases hst : partPush g rp1 part f (c, d, out) p with ⟨c1, d1, out1⟩
    rw [ih c1 d1 out1 x]
    have hc1 : ∀ y, c1 y =
        if part y = p ∧ c y = INF_COST ∧
            (∃ v, v < g.vertex_count ∧ f v = true ∧ part v = p ∧ y ∈ adjOf g v)
          then rp1 else c y := by
      intro y
      have h := partPush_cost g rp1 part f c d out p y
      rw [hst] at h
      exact h
    have hd1 : (d1 x = true) ↔
        (d x = true ∨ (part x = p ∧ c x = INF_COST ∧
          (∃ v, v < g.vertex_count ∧ f v = true ∧ part v = p ∧
            x ∈ adjOf g v))) := by
      have h := partPush_disc g rp1 part f c d out p x
      rw [hst] at h
      exact h
    rw [hc1 x, hd1]
    by_cases hpx : part x = p
    · subst hpx
      by_cases hc : c x = INF_COST
      · by_cases hE : ∃ v, v < g.vertex_count ∧ f v = true ∧
            part v = part x ∧ x ∈ adjOf g v
        · by_cases hr : rp1 = INF_COST
          · simp [hc, hE, hr]
          · simp [hc, hE, hr]
        · simp [hc, hE]
      · simp [hc]
    · by_cases hc : c x = INF_COST
      · by_cases hmem : part x ∈ ps
        · simp [hpx, hc, hmem, List.mem_cons]
        · simp [hpx, hc, hmem, List.mem_cons]
      · simp [hpx, hc]

theorem partsFold_out_mem (g : graph_t) (rp1 : Nat) (part : Nat → Nat)
    (f : Nat → Bool) :
    ∀ (ps : List Nat) (c : Nat → Nat) (d : Nat → Bool) (out : List (Nat × Nat))
      (m : Nat × Nat),
    (m ∈ ((ps.foldl (partPush g rp1 part f) (c, d, out))).2.2) ↔
      (m ∈ out ∨ (m.2 = rp1 ∧ ∃ p ∈ ps, ∃ v, v < g.vertex_count ∧
        f v = true ∧ part v = p ∧ m.1 ∈ adjOf g v ∧ ¬ part m.1 = p)) := by
  intro ps
  induction ps with
  | nil => intro c d out m; simp
  | cons p ps ih =>
    intro c d out m
    rw [List.foldl_cons]
    rcases hst : partPush g rp1 part f (c, d, out) p with ⟨c1, d1, out1⟩
    rw [ih c1 d1 out1 m]
    have hout1 : (m ∈ out1) ↔
        (m ∈ out ∨ (m.2 = rp1 ∧ ∃ v, v < g.vertex_count ∧ f v = true ∧
          part v = p ∧ m.1 ∈ adjOf g v ∧ ¬ part m.1 = p)) := by
      have h := partPush_out_mem g rp1 part f c d out p m
      rw [hst] at h
      exact h
    rw [hout1]
    have habcd : ∀ (A B C D : Prop),
        ((A ∨ (B ∧ C)) ∨ (B ∧ D)) ↔ (A ∨ (B ∧ (C ∨ D))) := by tauto
    simp only [List.exists_mem_cons_iff]
    exact habcd _ _ _ _

theorem ite_combine_cost (cw rp1 inf : Nat) (A M E : Prop)
    [Decidable A] [Decidable M] [Decidable E] (hiff : (A ∨ M) ↔ E) :
    (if (if cw = inf ∧ A then rp1 else cw) = inf ∧ M then rp1
     else (if cw = inf ∧ A then rp1 else cw)) =
      (if cw = inf ∧ E then rp1 else cw) := by
  by_cases hc : cw = inf
  · by_cases hA : A
    · have hE : E := hiff.mp (Or.inl hA)
      by_cases hr : rp1 = inf
      · by_cases hM : M
        · simp [hc, hA, hE, hr, hM]
        · simp [hc, hA, hE, hr, hM]
      · simp [hc, hA, hE, hr]
    · by_cases hM : M
      · have hE : E := hiff.mp (Or.inr hM)
        simp [hc, hA, hM, hE]
      · have hE : ¬ E := fun h => (hiff.mpr h).elim hA hM
        simp [hc, hA, hM, hE]
  · simp [hc]

theorem ite_combine_disc (cw rp1 inf : Nat) (A M E : Prop)
    [Decidable A] [Decidable M] [Decidable E] (hiff : (A ∨ M) ↔ E) :
    ((cw = inf ∧ A) ∨ ((if cw = inf ∧ A then rp1 else cw) = inf ∧ M)) ↔
      (cw = inf ∧ E) := by
  by_cases hc : cw = inf
  · by_cases hA : A
    · have hE : E := hiff.mp (Or.inl hA)
      simp [hc, hA, hE]
    · by_cases hM : M
      · have hE : E := hiff.mp (Or.inr hM)
        simp [hc, hA, hM, hE]
      · have hE : ¬ E := fun h => (hiff.mpr h).elim hA hM
        simp [hc, hA, hM, hE]
  · simp [hc]

/-- Central determinism lemma (spec §4.4): because in-round updates cross
partitions only through the message layer and all messages of a round
carry the same cost value, one partitioned round has exactly the same
effect on the global state as one single-partition round. -/
theorem pbfsRound_eq (g : graph_t) (k : Nat) (part : Nat → Nat)
    (hwf : WFgraph g) (hpart : ∀ v, v < g.vertex_count → part v < k)
    (r : Nat) (c : Nat → Nat) (f : Nat → Bool) :
    pbfsRound g k part r c f = bfsRound g r c f := by
  have hall : ∀ m ∈ (((List.range k).foldl
      (partPush g ((r + 1) % COST_MOD) part f)
      (c, fun _ => false, []))).2.2, m.2 = (r + 1) % COST_MOD := by
    intro m hm
    rw [partsFold_out_mem] at hm
    rcases hm with hm | hm
    · simp at hm
    · exact hm.1
  have hmsg : ∀ w, (∃ m ∈ (((List.range k).foldl
      (partPush g ((r + 1) % COST_MOD) part f)
      (c, fun _ => false, []))).2.2, m.1 = w) ↔
      (∃ p ∈ List.range k, ∃ v, v < g.vertex_count ∧ f v = true ∧
        part v = p ∧ w ∈ adjOf g v ∧ ¬ part w = p) := by
    intro w
    constructor
    · rintro ⟨m, hm, hm1⟩
      rw [partsFold_out_mem] at hm
      rcases hm with hm | hm
      · simp at hm
      · rw [← hm1]; exact hm.2
    · rintro ⟨p, hp, v, hv, hf, hvp, hw, hwp⟩
      refine ⟨(w, (r + 1) % COST_MOD), ?_, rfl⟩
      rw [partsFold_out_mem]
      exact Or.inr ⟨rfl, p, hp, v, hv, hf, hvp, hw, hwp⟩
  have hiff : ∀ w,
      (((part w ∈ List.range k ∧ (∃ v, v < g.vertex_count ∧ f v = true ∧
          part v = part w ∧ w ∈ adjOf g v)) ∨
        (∃ m ∈ (((List.range k).foldl
          (partPush g ((r + 1) % COST_MOD) part f)
          (c, fun _ => false, []))).2.2, m.1 = w))) ↔
      (∃ v, v < g.vertex_count ∧ f v = true ∧ w ∈ adjOf g v) := by
    intro w
    rw [hmsg w]
    constructor
    · rintro (⟨_, v, hv, hf, _, hw⟩ | ⟨p, _, v, hv, hf, _, hw, _⟩)
      · exact ⟨v, hv, hf, hw⟩
      · exact ⟨v, hv, hf, hw⟩
    · rintro ⟨v, hv, hf, hw⟩
      by_cases hsame : part v = part w
      · left
        have hwn : w < g.vertex_count := WF_adj_lt hwf hv hw
        exact ⟨List.mem_range.mpr (hpart w hwn), v, hv, hf, hsame, hw⟩
      · right
        exact ⟨part v, List.mem_range.mpr (hpart v hv), v, hv, hf, rfl, hw,
          fun h => hsame h.symm⟩
  unfold pbfsRound
  refine Prod.ext ?_ ?_
  · funext w
    have hdel := exchangeDeliver_cost ((r + 1) % COST_MOD) _ hall
      (((List.range k).foldl (partPush g ((r + 1) % COST_MOD) part f)
        (c, fun _ => false, []))).1
      (((List.range k).foldl (partPush g ((r + 1) % COST_MOD) part f)
        (c, fun _ => false, []))).2.1 w
    simp only [] at hdel ⊢
    rw [hdel, bfsRound_cost]
    have hfoldc := partsFold_cost g ((r + 1) % COST_MOD) part f
      (List.range k) c (fun _ => false) [] w
    rw [hfoldc]
    exact ite_combine_cost (c w) ((r + 1) % COST_MOD) INF_COST _ _ _ (hiff w)
  · funext w
    rw [Bool.eq_iff_iff]
    have hdel := exchangeDeliver_disc ((r + 1) % COST_MOD) _ hall
      (((List.range k).foldl (partPush g ((r + 1) % COST_MOD) part f)
        (c, fun _ => false, []))).1
      (((List.range k).foldl (partPush g ((r + 1) % COST_MOD) part f)
        (c, fun _ => false, []))).2.1 w
    simp only [] at hdel ⊢
    rw [hdel, bfsRound_disc]
    have hfoldc := partsFold_cost g ((r + 1) % COST_MOD) part f
      (List.range k) c (fun _ => false) [] w
    have hfoldd := partsFold_disc g ((r + 1) % COST_MOD) part f
      (List.range k) c (fun _ => false) [] w
    rw [hfoldd, hfoldc]
    have hfalse : ((false = true) ∨ (c w = INF_COST ∧ part w ∈ List.range k ∧
        (∃ v, v < g.vertex_count ∧ f v = true ∧ part v = part w ∧
          w ∈ adjOf g v))) ↔
        (c w = INF_COST ∧ (part w ∈ List.range k ∧
          (∃ v, v < g.vertex_count ∧ f v = true ∧ part v = part w ∧
            w ∈ adjOf g v))) := by
      simp
    rw [hfalse]
    exact ite_combine_disc (c w) ((r + 1) % COST_MOD) INF_COST _ _ _ (hiff w)

theorem pbfsLoop_eq (g : graph_t) (k : Nat) (part : Nat → Nat)
    (hwf : WFgraph g) (hpart : ∀ v, v < g.vertex_count → part v < k) :
    ∀ (fuel r : Nat) (c : Nat → Nat) (f : Nat → Bool),
    pbfsLoop g k part fuel r c f = bfsLoop g fuel r c f := by
  intro fuel
  induction fuel with
  | zero => intro r c f; rfl
  | succ fuel ih =>
    intro r c f
    rw [pbfsLoop, bfsLoop]
    by_cases hemp : (frontierList g.vertex_count f).isEmpty
    · simp [hemp]
    · simp only [hemp, Bool.false_eq_true, if_false]
      rw [pbfsRound_eq g k part hwf hpart]
      exact ih (r + 1) (bfsRound g r c f).1 (bfsRound g r c f).2

theorem bfs_hybrid_eq (g : graph_t) (k : Nat) (part : Nat → Nat) (src : Nat)
    (hwf : WFgraph g) (hpart : ∀ v, v < g.vertex_count → part v < k) :
    bfs_hybrid k part g src = bfs g src := by
  unfold bfs_hybrid bfs
  by_cases h : src < g.vertex_count
  · simp only [h, if_true]
    rw [pbfsLoop_eq g k part hwf hpart]
  · simp [h]

/-- Claim C1: for every graph and in-range source, the frontier-expansion
search cost array is identical regardless of the number of partitions or
of host/device assignment: `bfs_cpu`, `bfs_gpu` and `bfs_hybrid` (run with
any partition count `k` and any vertex-to-partition assignment covering
the vertices) produce the same per-vertex cost array. -/
theorem bfs_partitioning_deterministic (g : graph_t) (k : Nat)
    (part : Nat → Nat) (src : Nat) (hwf : WFgraph g)
    (hsrc : src < g.vertex_count)
    (hpart : ∀ v, v < g.vertex_count → part v < k) :
    bfs_cpu g src = bfs_gpu g src ∧
      bfs_hybrid k part g src = bfs_cpu g src :=
  ⟨rfl, bfs_hybrid_eq g k part src hwf hpart⟩

/-- Witness for C1 on the 3-vertex chain split into two partitions. -/
theorem bfs_partitioning_deterministic_witness :
    WFgraph ⟨3, false, [[1], [0, 2], [1]], []⟩ ∧ 0 < 3 ∧
      (∀ v, v < 3 → v % 2 < 2) ∧
      (bfs_cpu ⟨3, false, [[1], [0, 2], [1]], []⟩ 0 =
          bfs_gpu ⟨3, false, [[1], [0, 2], [1]], []⟩ 0 ∧
        bfs_hybrid 2 (fun v => v % 2) ⟨3, false, [[1], [0, 2], [1]], []⟩ 0 =
          bfs_cpu ⟨3, false, [[1], [0, 2], [1]], []⟩ 0) :=
  ⟨by decide, by decide, by decide,
    bfs_partitioning_deterministic ⟨3, false, [[1], [0, 2], [1]], []⟩ 2
      (fun v => v % 2) 0 (by decide) (by decide) (by decide)⟩

/-- Claim C2: a caller-supplied source vertex id that is out of bounds is
rejected with `VertexRangeError` before any partitioning or compute
occurs, for the plain entry points and for the hybrid entry point with
every partition plan; the id is never silently clamped (no cost array is
produced), and evaluation is total (no crash). -/
theorem bfs_src_out_of_range_rejected (g : graph_t) (src : Nat)
    (h : g.vertex_count ≤ src) :
    bfs g src = Except.error error_t.VertexRangeError ∧
      bfs_cpu g src = Except.error error_t.VertexRangeError ∧
      bfs_gpu g src = Except.error error_t.VertexRangeError ∧
      ∀ (k : Nat) (part : Nat → Nat),
        bfs_hybrid k part g src = Except.error error_t.VertexRangeError := by
  have hn : ¬ src < g.vertex_count := by omega
  refine ⟨?_, ?_, ?_, ?_⟩
  · unfold bfs; rw [if_neg hn]
  · unfold bfs_cpu bfs; rw [if_neg hn]
  · unfold bfs_gpu bfs; rw [if_neg hn]
  · intro k part; unfold bfs_hybrid; rw [if_neg hn]

/-- Witness for C2: BFS from the non-existent vertex id 1 on a
single-vertex graph fails with `VertexRangeError`. -/
theorem bfs_src_out_of_range_rejected_witness :
    (graph_t.mk 1 false [[]] []).vertex_count ≤ 1 ∧
      (bfs ⟨1, false, [[]], []⟩ 1 = Except.error error_t.VertexRangeError ∧
        bfs_cpu ⟨1, false, [[]], []⟩ 1 = Except.error error_t.VertexRangeError ∧
        bfs_gpu ⟨1, false, [[]], []⟩ 1 = Except.error error_t.VertexRangeError ∧
        ∀ (k : Nat) (part : Nat → Nat),
          bfs_hybrid k part ⟨1, false, [[]], []⟩ 1 =
            Except.error error_t.VertexRangeError) :=
  ⟨by decide, bfs_src_out_of_range_rejected ⟨1, false, [[]], []⟩ 1 (by decide)⟩

/-- Claim C8: BFS on the empty graph (0 vertices) is a well-defined
rejection (the source id 0 is itself out of range), not a crash, and BFS
on a single-vertex graph from that vertex yields cost 0 for it. -/
theorem bfs_empty_and_single_vertex :
    bfs_gpu ⟨0, false, [], []⟩ 0 = Except.error error_t.VertexRangeError ∧
      bfs_gpu ⟨0, false, [], []⟩ 99 = Except.error error_t.VertexRangeError ∧
      bfs_gpu ⟨1, false, [[]], []⟩ 0 = Except.ok [0] := by
  refine ⟨rfl, rfl, rfl⟩

/-- Claim C9: on a single-vertex graph whose only vertex has a self-loop,
BFS from vertex 0 succeeds and returns cost 0 for the source; the
self-loop neither changes the source's cost nor causes a failure. -/
theorem bfs_single_vertex_self_loop :
    bfs_gpu ⟨1, false, [[0]], []⟩ 0 = Except.ok [0] := by rfl

/-!
Scenario 1 (spec §8): the unweighted chain graph.  Vertex `v` of the
`n`-vertex chain is adjacent to `v - 1` and `v + 1` (when they exist); BFS
from an endpoint is settled by an induction on rounds with an explicit
invariant, not by evaluation.
-/

/-- Adjacency of vertex `v` in the `n`-vertex chain. -/
def chainAdj (n v : Nat) : List Nat :=
  (if 0 < v then [v - 1] else []) ++ (if v + 1 < n then [v + 1] else [])

/-- The `n`-vertex chain graph 0-1-2-...-(n-1). -/
def chainGraph (n : Nat) : graph_t :=
  ⟨n, false, (List.range n).map (chainAdj n), []⟩

theorem adjOf_chain (n v : Nat) (h : v < n) :
    adjOf (chainGraph n) v = chainAdj n v := by
  unfold adjOf chainGraph
  simp only []
  rw [List.getD_eq_getElem?_getD, List.getElem?_map]
  rw [List.getElem?_range h]
  rfl

theorem chain_mem_adj (n r w : Nat) :
    (w ∈ chainAdj n r) ↔ ((0 < r ∧ w = r - 1) ∨ (r + 1 < n ∧ w = r + 1)) := by
  unfold chainAdj
  by_cases h0 : 0 < r <;> by_cases h1 : r + 1 < n <;>
    simp [h0, h1]

theorem exists_frontier_singleton (n : Nat) {r : Nat} {P : Nat → Prop} :
    (∃ v, v < n ∧ (v == r) = true ∧ P v) ↔ (r < n ∧ P r) := by
  constructor
  · rintro ⟨v, hv, hbeq, hp⟩
    rw [beq_iff_eq] at hbeq
    subst hbeq
    exact ⟨hv, hp⟩
  · rintro ⟨hr, hp⟩
    exact ⟨r, hr, by simp, hp⟩

/-- Cost array after `r` rounds of BFS from vertex 0 on the chain:
vertices up to `r` carry their index, the rest are undiscovered. -/
def chainCostA (r : Nat) : Nat → Nat :=
  fun v => if v ≤ r then v else INF_COST

theorem chain_roundA_mid (n r : Nat) (hn : n ≤ INF_COST) (hr : r + 1 < n) :
    bfsRound (chainGraph n) r (chainCostA r) (fun v => v == r) =
      (chainCostA (r + 1), fun v => v == r + 1) := by
  have hrn : r < n := by omega
  have hmod : (r + 1) % COST_MOD = r + 1 := by
    apply Nat.mod_eq_of_lt
    unfold INF_COST at hn
    unfold COST_MOD
    omega
  refine Prod.ext ?_ ?_
  · funext w
    rw [bfsRound_cost]
    simp only [exists_frontier_singleton ((chainGraph n).vertex_count)]
    rw [show (chainGraph n).vertex_count = n from rfl, adjOf_chain n r hrn,
      hmod]
    by_cases hw : w ∈ chainAdj n r
    · rcases (chain_mem_adj n r w).mp hw with ⟨h0, hw1⟩ | ⟨h1, hw1⟩
      · subst hw1
        have hc : chainCostA r (r - 1) = r - 1 := by
          unfold chainCostA; rw [if_pos (by omega)]
        have hne : ¬ chainCostA r (r - 1) = INF_COST := by
          rw [hc]; unfold INF_COST at hn ⊢; omega
        rw [if_neg (by tauto)]
        unfold chainCostA
        rw [if_pos (by omega), if_pos (by omega)]
      · subst hw1
        have hc : chainCostA r (r + 1) = INF_COST := by
          unfold chainCostA; rw [if_neg (by omega)]
        rw [if_pos ⟨hc, hrn, hw⟩]
        unfold chainCostA
        rw [if_pos (by omega)]
    · rw [if_neg (by tauto)]
      unfold chainCostA
      have hwr1 : ¬ w = r + 1 := by
        intro h
        exact hw ((chain_mem_adj n r w).mpr (Or.inr ⟨hr, h⟩))
      by_cases hle : w ≤ r
      · rw [if_pos hle, if_pos (by omega)]
      · rw [if_neg hle, if_neg (by omega)]
  · funext w
    rw [Bool.eq_iff_iff, bfsRound_disc]
    simp only [exists_frontier_singleton ((chainGraph n).vertex_count)]
    rw [show (chainGraph n).vertex_count = n from rfl, adjOf_chain n r hrn]
    rw [beq_iff_eq]
    constructor
    · rintro ⟨hc, -, hw⟩
      rcases (chain_mem_adj n r w).mp hw with ⟨h0, hw1⟩ | ⟨h1, hw1⟩
      · exfalso
        unfold chainCostA at hc
        rw [if_pos (by omega)] at hc
        unfold INF_COST at hc hn
        omega
      · exact hw1
    · intro hw
      subst hw
      refine ⟨?_, hrn, (chain_mem_adj n r (r + 1)).mpr (Or.inr ⟨hr, rfl⟩)⟩
      unfold chainCostA
      rw [if_neg (by omega)]

theorem chain_roundA_last (n r : Nat) (hn : n ≤ INF_COST) (hr : r + 1 = n) :
    bfsRound (chainGraph n) r (chainCostA r) (fun v => v == r) =
      (chainCostA r, fun _ => false) := by
  have hrn : r < n := by omega
  have hnoup : ∀ w, ¬ (chainCostA r w = INF_COST ∧ w ∈ chainAdj n r) := by
    rintro w ⟨hc, hw⟩
    rcases (chain_mem_adj n r w).mp hw with ⟨h0, hw1⟩ | ⟨h1, hw1⟩
    · subst hw1
      unfold chainCostA at hc
      rw [if_pos (by omega)] at hc
      unfold INF_COST at hc hn
      omega
    · omega
  refine Prod.ext ?_ ?_
  · funext w
    rw [bfsRound_cost]
    simp only [exists_frontier_singleton ((chainGraph n).vertex_count)]
    rw [show (chainGraph n).vertex_count = n from rfl, adjOf_chain n r hrn]
    rw [if_neg (by intro h; exact hnoup w ⟨h.1, h.2.2⟩)]
  · funext w
    rw [Bool.eq_iff_iff, bfsRound_disc]
    simp only [exists_frontier_singleton ((chainGraph n).vertex_count)]
    rw [show (chainGraph n).vertex_count = n from rfl, adjOf_chain n r hrn]
    constructor
    · rintro ⟨hc, -, hw⟩
      exact absurd ⟨hc, hw⟩ (hnoup w)
    · intro h
      simp at h

theorem chain_loopA (n : Nat) (hn : n ≤ INF_COST) :
    ∀ (j r : Nat), r < n → j + r = n →
    bfsLoop (chainGraph n) j r (chainCostA r) (fun v => v == r) =
      chainCostA (n - 1) := by
  intro j
  induction j with
  | zero => intro r hr hj; omega
  | succ j ih =>
    intro r hr hj
    rw [bfsLoop]
    have hmem : r ∈ frontierList (chainGraph n).vertex_count
        (fun v => v == r) :=
      List.mem_filter.mpr ⟨List.mem_range.mpr hr, by simp⟩
    rw [if_neg (fun h => (List.ne_nil_of_mem hmem) (List.isEmpty_iff.mp h))]
    by_cases hlast : r + 1 = n
    · have hj0 : j = 0 := by omega
      subst hj0
      rw [chain_roundA_last n r hn hlast]
      show chainCostA r = chainCostA (n - 1)
      rw [show r = n - 1 by omega]
    · have hr1 : r + 1 < n := by omega
      rw [chain_roundA_mid n r hn hr1]
      exact ih (r + 1) (by omega) (by omega)

theorem chain_bfs_from_zero (n : Nat) (h1 : 1 ≤ n) (hn : n ≤ INF_COST) :
    bfs (chainGraph n) 0 = Except.ok ((List.range n).map (fun v => v)) := by
  unfold bfs
  rw [if_pos (show 0 < (chainGraph n).vertex_count from by
    show 0 < n; omega)]
  have hc0 : (fun v => if v = 0 then 0 else INF_COST) = chainCostA 0 := by
    funext v
    unfold chainCostA
    by_cases h : v = 0
    · subst h; simp
    · rw [if_neg h, if_neg (by omega)]
  have hf0 : (fun v => v == (0 : Nat)) = fun v => v == 0 := rfl
  rw [hc0]
  rw [show (chainGraph n).vertex_count = n from rfl]
  rw [chain_loopA n hn n 0 (by omega) (by omega)]
  congr 1
  apply List.map_congr_left
  intro v hv
  rw [List.mem_range] at hv
  unfold chainCostA
  rw [if_pos (by omega)]

/-- Cost array after `r` rounds of BFS from vertex `n - 1` on the chain:
vertices from `n - 1 - r` up carry their distance `(n - 1) - v`, the rest
are undiscovered. -/
def chainCostB (n r : Nat) : Nat → Nat :=
  fun v => if n - 1 - r ≤ v ∧ v < n then (n - 1) - v else INF_COST

theorem chain_roundB_mid (n r : Nat) (hn : n ≤ INF_COST) (hr : r + 1 < n) :
    bfsRound (chainGraph n) r (chainCostB n r) (fun v => v == n - 1 - r) =
      (chainCostB n (r + 1), fun v => v == n - 1 - (r + 1)) := by
  have hrn : n - 1 - r < n := by omega
  have hs1 : 0 < n - 1 - r := by omega
  have hmod : (r + 1) % COST_MOD = r + 1 := by
    apply Nat.mod_eq_of_lt
    unfold INF_COST at hn
    unfold COST_MOD
    omega
  refine Prod.ext ?_ ?_
  · funext w
    rw [bfsRound_cost]
    simp only [exists_frontier_singleton ((chainGraph n).vertex_count)]
    rw [show (chainGraph n).vertex_count = n from rfl,
      adjOf_chain n (n - 1 - r) hrn, hmod]
    by_cases hw : w ∈ chainAdj n (n - 1 - r)
    · rcases (chain_mem_adj n (n - 1 - r) w).mp hw with ⟨h0, hw1⟩ | ⟨h1, hw1⟩
      · subst hw1
        have hc : chainCostB n r (n - 1 - r - 1) = INF_COST := by
          unfold chainCostB; rw [if_neg (by omega)]
        rw [if_pos ⟨hc, hrn, hw⟩]
        unfold chainCostB
        rw [if_pos (by omega)]
        omega
      · subst hw1
        have hval : chainCostB n r (n - 1 - r + 1) = (n - 1) - (n - 1 - r + 1) := by
          unfold chainCostB; rw [if_pos (by omega)]
        have hne : ¬ chainCostB n r (n - 1 - r + 1) = INF_COST := by
          rw [hval]; unfold INF_COST at hn ⊢; omega
        rw [if_neg (by tauto)]
        unfold chainCostB
        by_cases hcond : n - 1 - r ≤ n - 1 - r + 1 ∧ n - 1 - r + 1 < n
        · rw [if_pos hcond, if_pos (by omega)]
        · omega
    · rw [if_neg (by tauto)]
      unfold chainCostB
      have hwne : ¬ w = n - 1 - r - 1 := by
        intro h
        exact hw ((chain_mem_adj n (n - 1 - r) w).mpr (Or.inl ⟨hs1, h⟩))
      by_cases hcond : n - 1 - r ≤ w ∧ w < n
      · rw [if_pos hcond, if_pos (by omega)]
      · rw [if_neg hcond, if_neg (by omega)]
  · funext w
    rw [Bool.eq_iff_iff, bfsRound_disc]
    simp only [exists_frontier_singleton ((chainGraph n).vertex_count)]
    rw [show (chainGraph n).vertex_count = n from rfl,
      adjOf_chain n (n - 1 - r) hrn]
    rw [beq_iff_eq]
    constructor
    · rintro ⟨hc, -, hw⟩
      rcases (chain_mem_adj n (n - 1 - r) w).mp hw with ⟨h0, hw1⟩ | ⟨h1, hw1⟩
      · omega
      · exfalso
        subst hw1
        unfold chainCostB at hc
        rw [if_pos (by omega)] at hc
        unfold INF_COST at hc hn
        omega
    · intro hw
      subst hw
      refine ⟨?_, hrn,
        (chain_mem_adj n (n - 1 - r) (n - 1 - (r + 1))).mpr
          (Or.inl ⟨hs1, by omega⟩)⟩
      unfold chainCostB
      rw [if_neg (by omega)]

theorem chain_roundB_last (n r : Nat) (hn : n ≤ INF_COST) (hr : r + 1 = n) :
    bfsRound (chainGraph n) r (chainCostB n r) (fun v => v == n - 1 - r) =
      (chainCostB n r, fun _ => false) := by
  have hrn : n - 1 - r < n := by omega
  have hs0 : n - 1 - r = 0 := by omega
  have hnoup : ∀ w,
      ¬ (chainCostB n r w = INF_COST ∧ w ∈ chainAdj n (n - 1 - r)) := by
    rintro w ⟨hc, hw⟩
    rcases (chain_mem_adj n (n - 1 - r) w).mp hw with ⟨h0, hw1⟩ | ⟨h1, hw1⟩
    · omega
    · subst hw1
      unfold chainCostB at hc
      rw [if_pos (by omega)] at hc
      unfold INF_COST at hc hn
      omega
  refine Prod.ext ?_ ?_
  · funext w
    rw [bfsRound_cost]
    simp only [exists_frontier_singleton ((chainGraph n).vertex_count)]
    rw [show (chainGraph n).vertex_count = n from rfl,
      adjOf_chain n (n - 1 - r) hrn]
    rw [if_neg (by intro h; exact hnoup w ⟨h.1, h.2.2⟩)]
  · funext w
    rw [Bool.eq_iff_iff, bfsRound_disc]
    simp only [exists_frontier_singleton ((chainGraph n).vertex_count)]
    rw [show (chainGraph n).vertex_count = n from rfl,
      adjOf_chain n (n - 1 - r) hrn]
    constructor
    · rintro ⟨hc, -, hw⟩
      exact absurd ⟨hc, hw⟩ (hnoup w)
    · intro h
      simp at h

theorem chain_loopB (n : Nat) (hn : n ≤ INF_COST) :
    ∀ (j r : Nat), r < n → j + r = n →
    bfsLoop (chainGraph n) j r (chainCostB n r) (fun v => v == n - 1 - r) =
      chainCostB n (n - 1) := by
  intro j
  induction j with
  | zero => intro r hr hj; omega
  | succ j ih =>
    intro r hr hj
    rw [bfsLoop]
    have hmem : n - 1 - r ∈ frontierList (chainGraph n).vertex_count
        (fun v => v == n - 1 - r) :=
      List.mem_filter.mpr ⟨List.mem_range.mpr (show n - 1 - r < n by omega),
        by simp⟩
    rw [if_neg (fun h => (List.ne_nil_of_mem hmem) (List.isEmpty_iff.mp h))]
    by_cases hlast : r + 1 = n
    · have hj0 : j = 0 := by omega
      subst hj0
      rw [chain_roundB_last n r hn hlast]
      show chainCostB n r = chainCostB n (n - 1)
      rw [show r = n - 1 by omega]
    · have hr1 : r + 1 < n := by omega
      rw [chain_roundB_mid n r hn hr1]
      exact ih (r + 1) (by omega) (by omega)

theorem chain_bfs_from_last (n : Nat) (h1 : 1 ≤ n) (hn : n ≤ INF_COST) :
    bfs (chainGraph n) (n - 1) =
      Except.ok ((List.range n).map (fun v => (n - 1) - v)) := by
  unfold bfs
  rw [if_pos (show n - 1 < (chainGraph n).vertex_count from by
    show n - 1 < n; omega)]
  have hc0 : (fun v => if v = n - 1 then 0 else INF_COST) = chainCostB n 0 := by
    funext v
    unfold chainCostB
    by_cases h : v = n - 1
    · subst h; rw [if_pos rfl, if_pos (by omega)]; omega
    · rw [if_neg h, if_neg (by omega)]
  rw [hc0]
  rw [show (chainGraph n).vertex_count = n from rfl]
  rw [show (fun v => v == n - 1) = (fun v => v == n - 1 - 0) from by
    funext v; rw [Nat.sub_zero]]
  rw [chain_loopB n hn n 0 (by omega) (by omega)]
  congr 1
  apply List.map_congr_left
  intro v hv
  rw [List.mem_range] at hv
  unfold chainCostB
  rw [if_pos (by omega)]

/-- Claim C3: on the unweighted 1000-vertex chain, BFS from vertex 0
returns cost `v` for every vertex `v`, and BFS from vertex 999 returns
cost `999 - v` for every vertex `v`. -/
theorem bfs_chain_1000 :
    bfs_gpu (chainGraph 1000) 0 =
        Except.ok ((List.range 1000).map (fun v => v)) ∧
      bfs_gpu (chainGraph 1000) 999 =
        Except.ok ((List.range 1000).map (fun v => 999 - v)) := by
  constructor
  · exact chain_bfs_from_zero 1000 (by omega) (by unfold INF_COST; omega)
  · exact chain_bfs_from_last 1000 (by omega) (by unfold INF_COST; omega)

/-!
Iterative propagation (PageRank).

Modelled from the spec: the body of `page_rank_cpu` (totem_page_rank.cu)
is not under `src/`; §4.6 gives the plugin ("iterative propagation: rank
array, fixed round count, damping factor 0.85, update rule
`new_rank(v) = (1 - damping)/N + damping * sum(rank(u)/outdegree(u))` over
in-neighbors `u`"), §4.5 the additive message aggregation, and the header
supplies `PAGE_RANK_ROUNDS = 30` and `PAGE_RANK_DAMPING_FACTOR = 0.85`.
Rank values (`rank_t` / `float`) are modelled as exact rationals.  Each
round, every vertex pushes `rank(u)/outdegree(u)` along each of its out
edges; the exchange layer sums the values arriving at each vertex; the
new rank is the damped combination.  A `rank_i = NULL` argument (here
`none`) selects the uniform initial ranking, as documented in the header.
-/

/-- Number of rounds, a static convergence condition for PageRank
(`const int PAGE_RANK_ROUNDS = 30` in the header). -/
def PAGE_RANK_ROUNDS : Nat := 30

/-- Damping factor (`const double PAGE_RANK_DAMPING_FACTOR = 0.85`). -/
def PAGE_RANK_DAMPING_FACTOR : ℚ := 85 / 100

/-- Out-degree of a vertex. -/
def outdeg (g : graph_t) (u : Nat) : Nat := (adjOf g u).length

/-- Messages of one propagation round: vertex `u` sends
`rank(u)/outdegree(u)` along each of its out edges. -/
def prMessages (g : graph_t) (r : List ℚ) : List (Nat × ℚ) :=
  (List.range g.vertex_count).flatMap
    (fun u => (adjOf g u).map (fun w => (w, r.getD u 0 / (outdeg g u : ℚ))))

/-- Additive aggregation of messages into the per-vertex inbox, spec §4.5
("for an additive score propagation, they are summed"). -/
def deliverAdd (msgs : List (Nat × ℚ)) (inbox : List ℚ) : List ℚ :=
  msgs.foldl (fun ib m => ib.set m.1 (ib.getD m.1 0 + m.2)) inbox

/-- One propagation superstep: push along out-edges, sum the per-vertex
inbox, apply the damped update. -/
def pageRankStep (g : graph_t) (r : List ℚ) : List ℚ :=
  (List.range g.vertex_count).map
    (fun v => (1 - PAGE_RANK_DAMPING_FACTOR) / (g.vertex_count : ℚ) +
      PAGE_RANK_DAMPING_FACTOR *
        (deliverAdd (prMessages g r)
          (List.replicate g.vertex_count 0)).getD v 0)

/-- The round loop: the round counter starts at the caller-supplied value
and increases by one per superstep until the fixed budget is reached. -/
def prGo (g : graph_t) (round : Nat) (r : List ℚ) : List ℚ :=
  if h : round < PAGE_RANK_ROUNDS then prGo g (round + 1) (pageRankStep g r)
  else r
termination_by PAGE_RANK_ROUNDS - round
decreasing_by omega

/-- The sequence of round-counter values assumed during one run starting
from the given counter value (the final value is the one at which the
loop's guard fails). -/
def prTrace (round : Nat) : List Nat :=
  if h : round < PAGE_RANK_ROUNDS then round :: prTrace (round + 1)
  else [round]
termination_by PAGE_RANK_ROUNDS - round
decreasing_by omega

/-- Uniform initial ranking: `1/N` per vertex. -/
def uniformRanks (g : graph_t) : List ℚ :=
  List.replicate g.vertex_count (1 / (g.vertex_count : ℚ))

/-- Initial rank resolution: a `NULL` (`none`) initial array selects the
uniform ranking, per the header's documentation of `rank_i`. -/
def prInit (g : graph_t) (rank_i : Option (List ℚ)) : List ℚ :=
  rank_i.getD (uniformRanks g)

/-- PageRank entry point.  The round counter is reset to 0 at run start.
The spec defines no failure condition for this algorithm, so the generic
success-or-failure return is always a success. -/
def page_rank_cpu (g : graph_t) (rank_i : Option (List ℚ)) :
    Except error_t (List ℚ) :=
  Except.ok (prGo g 0 (prInit g rank_i))

/-- GPU variant; device placement is abstracted away (spec §1, §9). -/
def page_rank_gpu (g : graph_t) (rank_i : Option (List ℚ)) :
    Except error_t (List ℚ) :=
  page_rank_cpu g rank_i

theorem prGo_eq_iterate (g : graph_t) :
    ∀ (k j : Nat), j + k = PAGE_RANK_ROUNDS → ∀ r,
    prGo g j r = (pageRankStep g)^[k] r := by
  intro k
  induction k with
  | zero =>
    intro j hj r
    rw [prGo, dif_neg (by omega)]
    rfl
  | succ k ih =>
    intro j hj r
    rw [prGo, dif_pos (by omega)]
    rw [ih (j + 1) (by omega) (pageRankStep g r)]
    rw [Function.iterate_succ_apply]

theorem prTrace_eq : ∀ (k j : Nat), j + k = PAGE_RANK_ROUNDS →
    prTrace j = List.range' j (k + 1) := by
  intro k
  induction k with
  | zero =>
    intro j hj
    rw [prTrace, dif_neg (by omega)]
    rfl
  | succ k ih =>
    intro j hj
    rw [prTrace, dif_pos (by omega), ih (j + 1) (by omega)]
    rfl

/-- Claim C6: the iterative propagation algorithm always terminates; its
static convergence condition is the fixed budget of exactly 30 rounds
(`PAGE_RANK_ROUNDS`), and the round counter, reset to 0 at run start,
climbs monotonically 0, 1, ..., 30: every run applies the superstep
exactly 30 times. -/
theorem page_rank_fixed_rounds :
    PAGE_RANK_ROUNDS = 30 ∧
      (∀ (g : graph_t) (r : List ℚ), prGo g 0 r = (pageRankStep g)^[30] r) ∧
      prTrace 0 = List.range (PAGE_RANK_ROUNDS + 1) ∧
      List.Chain' (· < ·) (prTrace 0) := by
  have htr : prTrace 0 = List.range (PAGE_RANK_ROUNDS + 1) := by
    rw [prTrace_eq PAGE_RANK_ROUNDS 0 rfl, List.range_eq_range']
  refine ⟨rfl, ?_, htr, ?_⟩
  · intro g r
    exact prGo_eq_iterate g 30 0 rfl r
  · rw [htr]
    rw [show PAGE_RANK_ROUNDS + 1 = Nat.succ PAGE_RANK_ROUNDS from rfl]
    rw [List.chain'_range_succ]
    intro m _
    omega

/-- Claim C10: a `NULL` (`none`) initial-rank array succeeds and behaves
exactly as if the uniform initial ranking `1/N` had been supplied, for
the CPU and GPU entry points. -/
theorem page_rank_null_rank_i_uniform (g : graph_t) :
    page_rank_cpu g none = Except.ok (prGo g 0 (uniformRanks g)) ∧
      page_rank_cpu g none = page_rank_cpu g (some (uniformRanks g)) ∧
      page_rank_gpu g none = page_rank_gpu g (some (uniformRanks g)) := by
  refine ⟨rfl, rfl, rfl⟩

theorem getD_map_range {α : Type} (n v : Nat) (hv : v < n) (f : Nat → α)
    (d : α) : ((List.range n).map f).getD v d = f v := by
  rw [List.getD_eq_getElem?_getD, List.getElem?_map, List.getElem?_range hv]
  rfl

theorem getD_set_same {α : Type} (l : List α) (i : Nat) (x d : α)
    (h : i < l.length) : (l.set i x).getD i d = x := by
  rw [List.getD_eq_getElem?_getD, List.getElem?_set_eq h]
  rfl

theorem getD_set_other {α : Type} (l : List α) (i j : Nat) (x d : α)
    (h : i ≠ j) : (l.set i x).getD j d = l.getD j d := by
  rw [List.getD_eq_getElem?_getD, List.getElem?_set_ne h,
    ← List.getD_eq_getElem?_getD]

theorem deliverAdd_cons (m : Nat × ℚ) (ms : List (Nat × ℚ)) (ib : List ℚ) :
    deliverAdd (m :: ms) ib =
      deliverAdd ms (ib.set m.1 (ib.getD m.1 0 + m.2)) := rfl

theorem deliverAdd_length :
    ∀ (msgs : List (Nat × ℚ)) (ib : List ℚ),
    (deliverAdd msgs ib).length = ib.length := by
  intro msgs
  induction msgs with
  | nil => intro ib; rfl
  | cons m ms ih =>
    intro ib
    rw [deliverAdd_cons, ih, List.length_set]

theorem deliverAdd_getD :
    ∀ (msgs : List (Nat × ℚ)) (ib : List ℚ) (v : Nat), v < ib.length →
    (deliverAdd msgs ib).getD v 0 =
      ib.getD v 0 + ((msgs.filter (fun m => m.1 == v)).map
        (fun m => m.2)).sum := by
  intro msgs
  induction msgs with
  | nil => intro ib v hv; simp [deliverAdd]
  | cons m ms ih =>
    intro ib v hv
    rw [deliverAdd_cons, ih _ v (by rw [List.length_set]; exact hv)]
    by_cases hm : m.1 = v
    · subst hm
      rw [getD_set_same _ _ _ _ hv]
      rw [show (List.filter (fun x => x.1 == m.1) (m :: ms)) =
        m :: List.filter (fun x => x.1 == m.1) ms from by
          rw [List.filter_cons_of_pos (by simp)]]
      rw [List.map_cons, List.sum_cons]
      ring
    · rw [getD_set_other _ _ _ _ _ hm]
      rw [show (List.filter (fun x => x.1 == v) (m :: ms)) =
        List.filter (fun x => x.1 == v) ms from by
          rw [List.filter_cons_of_neg (by simp [hm])]]

theorem sum_flatMap {α : Type} (f : α → List ℚ) :
    ∀ (l : List α), ((l.flatMap f).sum = (l.map (fun a => (f a).sum)).sum) := by
  intro l
  induction l with
  | nil => simp
  | cons a l ih =>
    rw [List.flatMap_cons, List.sum_append, List.map_cons, List.sum_cons, ih]

theorem nodup_filter_beq (v : Nat) :
    ∀ (l : List Nat), l.Nodup →
    l.filter (fun w => w == v) = if v ∈ l then [v] else [] := by
  intro l
  induction l with
  | nil => simp
  | cons a l ih =>
    intro hnd
    rw [List.nodup_cons] at hnd
    by_cases hav : a = v
    · subst hav
      rw [List.filter_cons_of_pos (by simp)]
      rw [if_pos (List.mem_cons_self a l)]
      rw [ih hnd.2, if_neg hnd.1]
    · rw [List.filter_cons_of_neg (by simp [hav])]
      rw [ih hnd.2]
      have : (v ∈ a :: l) ↔ (v ∈ l) := by
        rw [List.mem_cons]
        constructor
        · rintro (h | h)
          · exact absurd h.symm hav
          · exact h
        · exact Or.inr
      by_cases hv : v ∈ l
      · rw [if_pos hv, if_pos (this.mpr hv)]
      · rw [if_neg hv, if_neg (fun h => hv (this.mp h))]

theorem sum_map_ite_filter (p : Nat → Bool) (c : Nat → ℚ) :
    ∀ (l : List Nat),
    (l.map (fun u => if p u = true then c u else 0)).sum =
      ((l.filter p).map c).sum := by
  intro l
  induction l with
  | nil => simp
  | cons a l ih =>
    rw [List.map_cons, List.sum_cons, ih]
    by_cases hp : p a = true
    · rw [if_pos hp, List.filter_cons_of_pos hp, List.map_cons, List.sum_cons]
    · rw [if_neg hp, List.filter_cons_of_neg hp, zero_add]

theorem prMessages_dest_lt (g : graph_t) (r : List ℚ) (hwf : WFgraph g) :
    ∀ m ∈ prMessages g r, m.1 < g.vertex_count := by
  intro m hm
  unfold prMessages at hm
  rw [List.mem_flatMap] at hm
  obtain ⟨u, hu, hm⟩ := hm
  rw [List.mem_map] at hm
  obtain ⟨w, hw, hm⟩ := hm
  rw [← hm]
  exact WF_adj_lt hwf (List.mem_range.mp hu) hw

/-- In-neighbors of a vertex, read off the out-edge lists. -/
def inNeighbors (g : graph_t) (v : Nat) : List Nat :=
  (List.range g.vertex_count).filter (fun u => decide (v ∈ adjOf g u))

theorem getD_replicate (n v : Nat) (x : ℚ) (hv : v < n) :
    (List.replicate n x).getD v 0 = x := by
  rw [List.getD_eq_getElem?_getD, List.getElem?_replicate, if_pos hv]
  rfl

theorem filter_fst_map_pair (v : Nat) (c : ℚ) :
    ∀ (l : List Nat),
    ((l.map (fun w => (w, c))).filter (fun m => m.1 == v)) =
      ((l.filter (fun w => w == v)).map (fun w => (w, c))) := by
  intro l
  induction l with
  | nil => simp
  | cons a l ih =>
    rw [List.map_cons]
    by_cases hav : a = v
    · subst hav
      rw [List.filter_cons_of_pos (by simp),
        List.filter_cons_of_pos (by simp), List.map_cons, ih]
    · rw [List.filter_cons_of_neg (by simp [hav]),
        List.filter_cons_of_neg (by simp [hav]), ih]

/-- Claim C5: in each superstep, every vertex `v`'s value is updated by
the rule `new_rank(v) = (1 - damping)/N + damping *
sum(rank(u)/outdegree(u))` taken over the in-neighbors `u` of `v`, with
damping factor 0.85 and `N` the vertex count: the push-based superstep
realises exactly the spec's in-neighbor formula. -/
theorem page_rank_update_rule (g : graph_t) (r : List ℚ) (v : Nat)
    (hwf : WFgraph g) (hnodup : ∀ u, u < g.vertex_count → (adjOf g u).Nodup)
    (hv : v < g.vertex_count) :
    (pageRankStep g r).getD v 0 =
      (1 - PAGE_RANK_DAMPING_FACTOR) / (g.vertex_count : ℚ) +
        PAGE_RANK_DAMPING_FACTOR *
          ((inNeighbors g v).map
            (fun u => r.getD u 0 / (outdeg g u : ℚ))).sum := by
  unfold pageRankStep
  rw [getD_map_range _ v hv]
  congr 1
  congr 1
  rw [deliverAdd_getD _ _ v (by rw [List.length_replicate]; exact hv)]
  rw [getD_replicate _ v 0 hv, zero_add]
  unfold prMessages
  rw [List.filter_flatMap, List.map_flatMap, sum_flatMap]
  have hcong : ∀ u ∈ List.range g.vertex_count,
      ((List.filter (fun m => m.1 == v)
          ((adjOf g u).map
            (fun w => (w, r.getD u 0 / (outdeg g u : ℚ))))).map
        (fun m => m.2)).sum =
      (if (decide (v ∈ adjOf g u)) = true
        then r.getD u 0 / (outdeg g u : ℚ) else 0) := by
    intro u hu
    rw [filter_fst_map_pair]
    rw [nodup_filter_beq v _ (hnodup u (List.mem_range.mp hu))]
    by_cases hmem : v ∈ adjOf g u
    · rw [if_pos hmem, if_pos (by simpa using hmem)]
      simp
    · rw [if_neg hmem, if_neg (by simpa using hmem)]
      simp
  rw [List.map_congr_left hcong]
  rw [sum_map_ite_filter]
  rfl

/-- Witness for C5 on the middle vertex of the 3-vertex chain. -/
theorem page_rank_update_rule_witness :
    WFgraph ⟨3, false, [[1], [0, 2], [1]], []⟩ ∧
      (∀ u, u < 3 → (adjOf ⟨3, false, [[1], [0, 2], [1]], []⟩ u).Nodup) ∧
      1 < 3 ∧
      (pageRankStep ⟨3, false, [[1], [0, 2], [1]], []⟩ [1/3, 1/3, 1/3]).getD 1 0 =
        (1 - PAGE_RANK_DAMPING_FACTOR) /
            ((graph_t.mk 3 false [[1], [0, 2], [1]] []).vertex_count : ℚ) +
          PAGE_RANK_DAMPING_FACTOR *
            ((inNeighbors ⟨3, false, [[1], [0, 2], [1]], []⟩ 1).map
              (fun u => ([1/3, 1/3, 1/3] : List ℚ).getD u 0 /
                (outdeg ⟨3, false, [[1], [0, 2], [1]], []⟩ u : ℚ))).sum :=
  ⟨by decide, by decide, by decide,
    page_rank_update_rule ⟨3, false, [[1], [0, 2], [1]], []⟩ [1/3, 1/3, 1/3] 1
      (by decide) (by decide) (by decide)⟩

theorem sum_getD_range : ∀ (l : List ℚ),
    ((List.range l.length).map (fun u => l.getD u 0)).sum = l.sum := by
  intro l
  induction l with
  | nil => simp
  | cons a l ih =>
    rw [List.length_cons, List.range_succ_eq_map, List.map_cons,
      List.map_map]
    rw [List.sum_cons]
    have hcomp : ((fun u => (a :: l).getD u 0) ∘ Nat.succ) =
        (fun u => l.getD u 0) := by
      funext u
      simp [List.getD_cons_succ]
    rw [hcomp, ih]
    rfl

theorem sum_set_add : ∀ (l : List ℚ) (i : Nat) (q : ℚ), i < l.length →
    (l.set i (l.getD i 0 + q)).sum = l.sum + q := by
  intro l
  induction l with
  | nil => intro i q hi; simp at hi
  | cons a l ih =>
    intro i q hi
    cases i with
    | zero =>
      rw [List.getD_cons_zero, List.set_cons_zero, List.sum_cons,
        List.sum_cons]
      ring
    | succ i =>
      rw [List.getD_cons_succ, List.set_cons_succ, List.sum_cons,
        List.sum_cons, ih i q (by simpa using hi)]
      ring

theorem deliverAdd_sum : ∀ (msgs : List (Nat × ℚ)) (ib : List ℚ),
    (∀ m ∈ msgs, m.1 < ib.length) →
    (deliverAdd msgs ib).sum = ib.sum + (msgs.map (fun m => m.2)).sum := by
  intro msgs
  induction msgs with
  | nil => intro ib _; simp [deliverAdd]
  | cons m ms ih =>
    intro ib hb
    rw [deliverAdd_cons]
    rw [ih _ (fun m' hm' => by
      rw [List.length_set]
      exact hb m' (List.mem_cons_of_mem m hm'))]
    rw [sum_set_add ib m.1 m.2 (hb m (List.mem_cons_self m ms))]
    rw [List.map_cons, List.sum_cons]
    ring

theorem payload_sum_const (c : ℚ) : ∀ (l : List Nat),
    (((l.map (fun w => (w, c))).map (fun m => m.2)).sum =
      (l.length : ℚ) * c) := by
  intro l
  induction l with
  | nil => simp
  | cons a l ih =>
    rw [List.map_cons, List.map_cons, List.sum_cons, ih, List.length_cons]
    push_cast
    ring

theorem prMessages_payload_sum (g : graph_t) (r : List ℚ)
    (hdeg : ∀ u, u < g.vertex_count → 0 < outdeg g u) :
    ((prMessages g r).map (fun m => m.2)).sum =
      ((List.range g.vertex_count).map (fun u => r.getD u 0)).sum := by
  unfold prMessages
  rw [List.map_flatMap, sum_flatMap]
  apply congrArg
  apply List.map_congr_left
  intro u hu
  rw [payload_sum_const]
  rw [show ((adjOf g u).length : ℚ) = (outdeg g u : ℚ) from rfl]
  rw [mul_comm, div_mul_cancel₀]
  have hpos := hdeg u (List.mem_range.mp hu)
  have hne : outdeg g u ≠ 0 := by omega
  exact_mod_cast hne

theorem pageRankStep_length (g : graph_t) (r : List ℚ) :
    (pageRankStep g r).length = g.vertex_count := by
  unfold pageRankStep
  rw [List.length_map, List.length_range]

theorem pageRankStep_sum (g : graph_t) (r : List ℚ) (hwf : WFgraph g)
    (hn : 1 ≤ g.vertex_count)
    (hdeg : ∀ u, u < g.vertex_count → 0 < outdeg g u)
    (hlen : r.length = g.vertex_count) (hsum : r.sum = 1) :
    (pageRankStep g r).sum = 1 := by
  have hnz : ((g.vertex_count : ℚ)) ≠ 0 := by
    have hne : g.vertex_count ≠ 0 := by omega
    exact_mod_cast hne
  unfold pageRankStep
  rw [List.sum_map_add]
  have hconst : ((List.range g.vertex_count).map
      (fun _ => (1 - PAGE_RANK_DAMPING_FACTOR) / (g.vertex_count : ℚ))).sum =
      1 - PAGE_RANK_DAMPING_FACTOR := by
    rw [List.map_const', List.sum_replicate, List.length_range,
      nsmul_eq_mul, mul_div_assoc']
    rw [mul_comm, mul_div_assoc, div_self hnz, mul_one]
  rw [hconst, List.sum_map_mul_left]
  have hinbox : ((List.range g.vertex_count).map
      (fun v => (deliverAdd (prMessages g r)
        (List.replicate g.vertex_count 0)).getD v 0)).sum = 1 := by
    have hlen2 : (deliverAdd (prMessages g r)
        (List.replicate g.vertex_count 0)).length = g.vertex_count := by
      rw [deliverAdd_length, List.length_replicate]
    rw [show (List.range g.vertex_count) =
      (List.range (deliverAdd (prMessages g r)
        (List.replicate g.vertex_count 0)).length) from by rw [hlen2]]
    rw [sum_getD_range]
    rw [deliverAdd_sum _ _ (fun m hm => by
      rw [List.length_replicate]
      exact prMessages_dest_lt g r hwf m hm)]
    rw [prMessages_payload_sum g r hdeg]
    rw [List.sum_replicate, smul_zero, zero_add]
    rw [show (List.range g.vertex_count) = (List.range r.length) from by
      rw [hlen]]
    rw [sum_getD_range, hsum]
  rw [hinbox, mul_one]
  unfold PAGE_RANK_DAMPING_FACTOR
  norm_num

theorem uniformRanks_sum (g : graph_t) (hn : 1 ≤ g.vertex_count) :
    (uniformRanks g).sum = 1 := by
  have hnz : ((g.vertex_count : ℚ)) ≠ 0 := by
    have hne : g.vertex_count ≠ 0 := by omega
    exact_mod_cast hne
  unfold uniformRanks
  rw [List.sum_replicate, nsmul_eq_mul]
  rw [mul_one_div, div_self hnz]

theorem prIterate_sum (g : graph_t) (hwf : WFgraph g)
    (hn : 1 ≤ g.vertex_count)
    (hdeg : ∀ u, u < g.vertex_count → 0 < outdeg g u) :
    ∀ (k : Nat),
    ((pageRankStep g)^[k] (uniformRanks g)).sum = 1 ∧
      ((pageRankStep g)^[k] (uniformRanks g)).length = g.vertex_count := by
  intro k
  induction k with
  | zero =>
    refine ⟨uniformRanks_sum g hn, ?_⟩
    unfold uniformRanks
    rw [Function.iterate_zero_apply, List.length_replicate]
  | succ k ih =>
    rw [Function.iterate_succ_apply']
    exact ⟨pageRankStep_sum g _ hwf hn hdeg ih.2 ih.1,
      pageRankStep_length g _⟩

/-- Claim C7 (amended): for every graph with at least one vertex in which
every vertex has at least one outgoing edge, PageRank with the uniform
initial ranking succeeds and its rank values sum to exactly 1 in the
rational model.  (The outgoing-edge condition is forced by the
counterexample: a dangling vertex leaks rank mass.) -/
theorem page_rank_sum_one (g : graph_t) (hwf : WFgraph g)
    (hn : 1 ≤ g.vertex_count)
    (hdeg : ∀ u, u < g.vertex_count → 0 < outdeg g u) :
    ∃ ranks, page_rank_cpu g none = Except.ok ranks ∧ ranks.sum = 1 := by
  refine ⟨prGo g 0 (prInit g none), rfl, ?_⟩
  rw [show prInit g none = uniformRanks g from rfl]
  rw [prGo_eq_iterate g PAGE_RANK_ROUNDS 0 rfl]
  exact (prIterate_sum g hwf hn hdeg PAGE_RANK_ROUNDS).1

/-- Witness for the amended C7 on the directed 2-cycle. -/
theorem page_rank_sum_one_witness :
    WFgraph ⟨2, true, [[1], [0]], []⟩ ∧ 1 ≤ 2 ∧
      (∀ u, u < 2 → 0 < outdeg ⟨2, true, [[1], [0]], []⟩ u) ∧
      (∃ ranks, page_rank_cpu ⟨2, true, [[1], [0]], []⟩ none =
        Except.ok ranks ∧ ranks.sum = 1) :=
  ⟨by decide, by decide, by decide,
    page_rank_sum_one ⟨2, true, [[1], [0]], []⟩ (by decide) (by decide)
      (by decide)⟩

/-- Counterexample to C7 as stated: on the two-vertex graph with the
single edge 0 → 1 (vertex 1 has no outgoing edge), PageRank from the
uniform initial ranking converges to ranks summing to 171/800, which is
off from 1 by more than 1/2 — far beyond floating-point tolerance.  The
spec's own update rule loses the mass a dangling vertex would push. -/
theorem page_rank_sum_counterexample :
    page_rank_cpu ⟨2, true, [[1], []], []⟩ none =
        Except.ok [3/40, 111/800] ∧
      ([(3 : ℚ)/40, 111/800].sum = 171/800) ∧
      ¬ ((171 : ℚ)/800 = 1) ∧ ((1 : ℚ) - 171/800 > 1/2) := by
  have h1 : pageRankStep ⟨2, true, [[1], []], []⟩ [1/2, 1/2] = [3/40, 1/2] := by
    norm_num [pageRankStep, prMessages, deliverAdd, adjOf, outdeg,
      PAGE_RANK_DAMPING_FACTOR, List.range_succ]
  have h2 : pageRankStep ⟨2, true, [[1], []], []⟩ [3/40, 1/2] =
      [3/40, 111/800] := by
    norm_num [pageRankStep, prMessages, deliverAdd, adjOf, outdeg,
      PAGE_RANK_DAMPING_FACTOR, List.range_succ]
  have hfix : pageRankStep ⟨2, true, [[1], []], []⟩ [3/40, 111/800] =
      [3/40, 111/800] := by
    norm_num [pageRankStep, prMessages, deliverAdd, adjOf, outdeg,
      PAGE_RANK_DAMPING_FACTOR, List.range_succ]
  refine ⟨?_, by norm_num, by norm_num, by norm_num⟩
  unfold page_rank_cpu
  apply congrArg
  rw [show prInit ⟨2, true, [[1], []], []⟩ none =
    ([1/2, 1/2] : List ℚ) from by
      show List.replicate 2 (1 / (2 : ℚ)) = [1/2, 1/2]
      norm_num [List.replicate]]
  rw [prGo_eq_iterate _ PAGE_RANK_ROUNDS 0 rfl]
  rw [show PAGE_RANK_ROUNDS = 28 + 2 from rfl]
  rw [Function.iterate_add_apply]
  rw [show ((pageRankStep ⟨2, true, [[1], []], []⟩)^[2] [1/2, 1/2]) =
    ([3/40, 111/800] : List ℚ) from by
      show pageRankStep ⟨2, true, [[1], []], []⟩
        (pageRankStep ⟨2, true, [[1], []], []⟩ [1/2, 1/2]) = _
      rw [h1, h2]]
  exact Function.iterate_fixed hfix 28

/-!
Augmenting-path max-flow.

Modelled from the spec: the body of `maxflow_cpu` is not under `src/`;
spec §4.6 and §8 describe the algorithm as "augmenting-path max-flow
(residual capacities, repeated path-saturation rounds until no augmenting
path found)" with integer capacities on small test graphs.  (The header's
comment mentions the push-relabel formulation of [Hong08]; with the body
absent, the spec's augmenting-path description is modelled.)  Each round
searches the residual graph for a source-to-sink path of positive
residual capacity, saturates it by its bottleneck, and stops when no such
path remains.  The header requires the input to be a flow network: no
edge `(u,v)` coexisting with `(v,u)`.
-/

/-- Capacity of the edge `u → v`: the total weight of the parallel edges
from `u` to `v` in the graph store's weight array. -/
def capOf (g : graph_t) (u v : Nat) : Nat :=
  (((((adjOf g u).zip (g.weights.getD u [])).filter
    (fun e => e.1 == v))).map (fun e => e.2)).sum

/-- Flow-network requirement of the header: for every edge `(u,v)` in the
graph there must not exist an edge `(v,u)`. -/
def FlowNetwork (g : graph_t) : Prop :=
  ∀ u, u < g.vertex_count → ∀ v ∈ adjOf g u, ¬ u ∈ adjOf g v

instance (g : graph_t) : Decidable (FlowNetwork g) := by
  unfold FlowNetwork; infer_instance

/-- Neighbors reachable from `v` by one positive-residual edge. -/
def resAdj (n : Nat) (res : Nat → Nat → Nat) (v : Nat) : List Nat :=
  (List.range n).filter (fun w => decide (0 < res v w))

/-- Depth-first search for a residual path to `t`, backtracking over the
vertices already on the current path (`visited`). -/
def dfsPath (n : Nat) (res : Nat → Nat → Nat) (t : Nat) :
    Nat → List Nat → Nat → Option (List Nat)
  | 0, _, v => if v = t then some [t] else none
  | fuel + 1, visited, v =>
    if v = t then some [t]
    else
      ((resAdj n res v).filter
        (fun w => !((v :: visited).contains w))).findSome?
        (fun w => (dfsPath n res t fuel (v :: visited) w).map
          (fun p => v :: p))

/-- Search for an augmenting path from `s` to `t` in the residual graph. -/
def findPath (n : Nat) (res : Nat → Nat → Nat) (s t : Nat) :
    Option (List Nat) :=
  dfsPath n res t n [] s

/-- Consecutive vertex pairs of a path. -/
def pathEdges (p : List Nat) : List (Nat × Nat) := p.zip p.tail

/-- Bottleneck residual capacity along a path (0 for an edgeless path). -/
def bottleneck (res : Nat → Nat → Nat) (p : List Nat) : Nat :=
  match pathEdges p with
  | [] => 0
  | e :: es => es.foldl (fun m e2 => min m (res e2.1 e2.2)) (res e.1 e.2)

/-- Saturate one edge by `b`: its residual capacity drops by `b` and the
reverse residual capacity grows by `b`. -/
def augEdge (b : Nat) (res : Nat → Nat → Nat) (e : Nat × Nat) :
    Nat → Nat → Nat :=
  fun a c =>
    if a = e.1 ∧ c = e.2 then res a c - b
    else if a = e.2 ∧ c = e.1 then res a c + b
    else res a c

/-- Saturate every edge of a path by `b`. -/
def augment (b : Nat) (res : Nat → Nat → Nat) : List Nat → (Nat → Nat → Nat)
  | u :: w :: rest => augment b (augEdge b res (u, w)) (w :: rest)
  | _ => res

/-- Result of the saturation loop: the accumulated flow value, the final
residual capacities, and whether the loop stopped because no augmenting
path was found (as opposed to exhausting its round budget). -/
structure FFResult where
  flow : Nat
  res : Nat → Nat → Nat
  clean : Bool

/-- The augmenting-path saturation loop. -/
def ffLoop (n s t : Nat) : Nat → (Nat → Nat → Nat) → Nat → FFResult
  | 0, res, flow => ⟨flow, res, false⟩
  | fuel + 1, res, flow =>
    match findPath n res s t with
    | none => ⟨flow, res, true⟩
    | some p =>
      let b := bottleneck res p
      if b = 0 then ⟨flow, res, false⟩
      else ffLoop n s t fuel (augment b res p) (flow + b)

/-- Capacity of the cut `(S, not S)`: total capacity of the edges leaving
`S`. -/
def cutCap (n : Nat) (c : Nat → Nat → Nat) (S : Nat → Bool) : Nat :=
  ∑ u ∈ Finset.range n, ∑ v ∈ Finset.range n,
    (if S u = true ∧ S v = false then c u v else 0)

/-- Indicator of an optional vertex lying inside the cut side `S`. -/
def psiS (S : Nat → Bool) (o : Option Nat) : Nat :=
  match o with
  | some x => if S x = true then 1 else 0
  | none => 0

/-- Round budget: the capacity of the cut around the source bounds the
attainable flow, so this many saturation rounds always suffice. -/
def ffFuel (g : graph_t) (s : Nat) : Nat :=
  cutCap g.vertex_count (capOf g) (fun v => v == s) + 1

/-- Full result of the max-flow computation on a graph. -/
def maxflowFull (g : graph_t) (s t : Nat) : FFResult :=
  ffLoop g.vertex_count s t (ffFuel g s) (capOf g) 0

/-- Max-flow entry point: out-of-range source or sink ids are rejected
with `VertexRangeError` (spec §7); otherwise the flow value is returned. -/
def maxflow_cpu (g : graph_t) (s t : Nat) : Except error_t Nat :=
  if s < g.vertex_count ∧ t < g.vertex_count then
    Except.ok (maxflowFull g s t).flow
  else Except.error error_t.VertexRangeError

/-- An augmenting path in residual capacities `res`: a vertex chain from
the head vertex down to `t` whose every step has positive residual
capacity and stays inside the vertex range. -/
inductive ResPath (n : Nat) (res : Nat → Nat → Nat) (t : Nat) :
    Nat → List Nat → Prop where
  | nil : ResPath n res t t [t]
  | cons {v w : Nat} {p : List Nat} : 0 < res v w → w < n →
      ResPath n res t w p → ResPath n res t v (v :: p)

/-- Some augmenting path from `s` to `t` remains in `res`. -/
def AugPathExists (n : Nat) (res : Nat → Nat → Nat) (s t : Nat) : Prop :=
  ∃ p, ResPath n res t s p

theorem ResPath.shape {n : Nat} {res : Nat → Nat → Nat} {t v : Nat}
    {p : List Nat} (h : ResPath n res t v p) : ∃ rest, p = v :: rest := by
  cases h with
  | nil => exact ⟨[], rfl⟩
  | cons hres hwn hp => exact ⟨_, rfl⟩

theorem ResPath.head_eq {n : Nat} {res : Nat → Nat → Nat} {t v : Nat}
    {p : List Nat} (h : ResPath n res t v p) : p.head? = some v := by
  obtain ⟨rest, hrest⟩ := h.shape
  rw [hrest]
  rfl

theorem ResPath.last_eq {n : Nat} {res : Nat → Nat → Nat} {t v : Nat}
    {p : List Nat} (h : ResPath n res t v p) : p.getLast? = some t := by
  induction h with
  | nil => rfl
  | @cons v w p hres hwn hp ih =>
    obtain ⟨rest, hrest⟩ := hp.shape
    subst hrest
    rw [List.getLast?_cons_cons]
    exact ih

theorem ResPath.mem_lt {n : Nat} {res : Nat → Nat → Nat} {t v : Nat}
    {p : List Nat} (h : ResPath n res t v p) (hv : v < n) (ht : t < n) :
    ∀ x ∈ p, x < n := by
  induction h with
  | nil => intro x hx; rw [List.mem_singleton] at hx; omega
  | @cons v w p hres hwn hp ih =>
    intro x hx
    rw [List.mem_cons] at hx
    rcases hx with hx | hx
    · omega
    · exact ih hwn x hx

theorem pathEdges_cons_cons (a b : Nat) (l : List Nat) :
    pathEdges (a :: b :: l) = (a, b) :: pathEdges (b :: l) := rfl

theorem pathEdges_mem : ∀ (p : List Nat) (e : Nat × Nat),
    e ∈ pathEdges p → e.1 ∈ p ∧ e.2 ∈ p := by
  intro p
  induction p with
  | nil => intro e he; simp [pathEdges] at he
  | cons a l ih =>
    intro e he
    cases l with
    | nil => simp [pathEdges] at he
    | cons b l' =>
      rw [pathEdges_cons_cons, List.mem_cons] at he
      rcases he with he | he
      · subst he
        exact ⟨List.mem_cons_self _ _, List.mem_cons_of_mem _
          (List.mem_cons_self _ _)⟩
      · obtain ⟨h1, h2⟩ := ih e he
        exact ⟨List.mem_cons_of_mem _ h1, List.mem_cons_of_mem _ h2⟩

theorem ResPath.edges_pos {n : Nat} {res : Nat → Nat → Nat} {t v : Nat}
    {p : List Nat} (h : ResPath n res t v p) :
    ∀ e ∈ pathEdges p, 0 < res e.1 e.2 := by
  induction h with
  | nil => intro e he; simp [pathEdges] at he
  | @cons v w p hres hwn hp ih =>
    intro e he
    obtain ⟨rest, hrest⟩ := hp.shape
    subst hrest
    rw [pathEdges_cons_cons, List.mem_cons] at he
    rcases he with he | he
    · subst he; exact hres
    · exact ih e he

theorem ResPath.of_suffix {n : Nat} {res : Nat → Nat → Nat} {t v : Nat}
    {p : List Nat} (h : ResPath n res t v p) :
    ∀ (q₁ : List Nat) (x : Nat) (q₂ : List Nat), p = q₁ ++ x :: q₂ →
    ResPath n res t x (x :: q₂) := by
  induction h with
  | nil =>
    intro q₁ x q₂ heq
    cases q₁ with
    | nil =>
      simp at heq
      rw [heq.1, heq.2]
      exact ResPath.nil
    | cons a l => simp at heq
  | @cons v w p hres hwn hp ih =>
    intro q₁ x q₂ heq
    cases q₁ with
    | nil =>
      simp at heq
      obtain ⟨hx, hq⟩ := heq
      subst hx
      subst hq
      exact ResPath.cons hres hwn hp
    | cons a l =>
      simp at heq
      exact ih l x q₂ heq.2

theorem ResPath.toNodup {n : Nat} {res : Nat → Nat → Nat} {t v : Nat}
    {p : List Nat} (h : ResPath n res t v p) :
    ∃ q, ResPath n res t v q ∧ q.Nodup ∧ (∀ x ∈ q, x ∈ p) := by
  induction h with
  | nil =>
    exact ⟨[t], ResPath.nil, List.nodup_singleton t, fun x hx => hx⟩
  | @cons v w p hres hwn hp ih =>
    obtain ⟨q, hq, hnd, hsub⟩ := ih
    by_cases hv : v ∈ q
    · obtain ⟨q₁, q₂, hsplit⟩ := List.append_of_mem hv
      refine ⟨v :: q₂, hq.of_suffix q₁ v q₂ hsplit, ?_, ?_⟩
      · have hsuf : (v :: q₂).Sublist q := by
          rw [hsplit]
          exact (List.sublist_append_right q₁ (v :: q₂))
        exact hsuf.nodup hnd
      · intro x hx
        have hxq : x ∈ q := by
          rw [hsplit]
          exact List.mem_append_right q₁ hx
        exact List.mem_cons_of_mem v (hsub x hxq)
    · exact ⟨v :: q, ResPath.cons hres hwn hq,
        List.nodup_cons.mpr ⟨hv, hnd⟩,
        fun x hx => by
          rw [List.mem_cons] at hx
          rcases hx with hx | hx
          · rw [hx]; exact List.mem_cons_self v p
          · exact List.mem_cons_of_mem v (hsub x hx)⟩

theorem nodup_length_le (n : Nat) (p : List Nat) (hnd : p.Nodup)
    (hlt : ∀ x ∈ p, x < n) : p.length ≤ n := by
  have hsub : p.toFinset ⊆ Finset.range n := fun x hx =>
    Finset.mem_range.mpr (hlt x (List.mem_toFinset.mp hx))
  have hcard := Finset.card_le_card hsub
  rw [List.toFinset_card_of_nodup hnd] at hcard
  simpa using hcard

theorem bfold_le_init (res : Nat → Nat → Nat) :
    ∀ (es : List (Nat × Nat)) (a : Nat),
    es.foldl (fun m e2 => min m (res e2.1 e2.2)) a ≤ a := by
  intro es
  induction es with
  | nil => intro a; exact Nat.le_refl a
  | cons e es ih =>
    intro a
    rw [List.foldl_cons]
    exact Nat.le_trans (ih _) (Nat.min_le_left _ _)

theorem bfold_le_mem (res : Nat → Nat → Nat) :
    ∀ (es : List (Nat × Nat)) (a : Nat) (e : Nat × Nat), e ∈ es →
    es.foldl (fun m e2 => min m (res e2.1 e2.2)) a ≤ res e.1 e.2 := by
  intro es
  induction es with
  | nil => intro a e he; simp at he
  | cons e' es ih =>
    intro a e he
    rw [List.foldl_cons]
    rw [List.mem_cons] at he
    rcases he with he | he
    · subst he
      exact Nat.le_trans (bfold_le_init res es _) (Nat.min_le_right _ _)
    · exact ih _ e he

theorem le_bfold (res : Nat → Nat → Nat) :
    ∀ (es : List (Nat × Nat)) (a c : Nat), c ≤ a →
    (∀ e ∈ es, c ≤ res e.1 e.2) →
    c ≤ es.foldl (fun m e2 => min m (res e2.1 e2.2)) a := by
  intro es
  induction es with
  | nil => intro a c hc _; exact hc
  | cons e' es ih =>
    intro a c hc hall
    rw [List.foldl_cons]
    exact ih _ c (Nat.le_min.mpr ⟨hc, hall e' (List.mem_cons_self e' es)⟩)
      (fun e he => hall e (List.mem_cons_of_mem e' he))

theorem bottleneck_le_edges (res : Nat → Nat → Nat) (p : List Nat) :
    ∀ e ∈ pathEdges p, bottleneck res p ≤ res e.1 e.2 := by
  intro e he
  unfold bottleneck
  rcases hpe : pathEdges p with _ | ⟨e0, es⟩
  · rw [hpe] at he; simp at he
  · rw [hpe] at he
    rw [List.mem_cons] at he
    rcases he with he | he
    · subst he
      exact bfold_le_init res es _
    · exact bfold_le_mem res es _ e he

theorem bottleneck_pos (res : Nat → Nat → Nat) (p : List Nat)
    (hne : pathEdges p ≠ [])
    (hpos : ∀ e ∈ pathEdges p, 0 < res e.1 e.2) :
    0 < bottleneck res p := by
  unfold bottleneck
  rcases hpe : pathEdges p with _ | ⟨e0, es⟩
  · exact absurd hpe hne
  · rw [hpe] at hpos
    exact le_bfold res es _ 1 (hpos e0 (List.mem_cons_self e0 es))
      (fun e he => hpos e (List.mem_cons_of_mem e0 he))

theorem dfsPath_sound (n : Nat) (res : Nat → Nat → Nat) (t : Nat) :
    ∀ (fuel : Nat) (visited : List Nat) (v : Nat) (p : List Nat),
    v ∉ visited → dfsPath n res t fuel visited v = some p →
    ResPath n res t v p ∧ p.Nodup ∧ (∀ x ∈ p, x ∉ visited) := by
  intro fuel
  induction fuel with
  | zero =>
    intro visited v p hv hsome
    rw [dfsPath] at hsome
    by_cases hvt : v = t
    · rw [if_pos hvt] at hsome
      obtain hp : [t] = p := Option.some.inj hsome
      subst hp
      subst hvt
      exact ⟨ResPath.nil, List.nodup_singleton v,
        fun x hx => by rw [List.mem_singleton] at hx; rw [hx]; exact hv⟩
    · rw [if_neg hvt] at hsome
      exact absurd hsome (by simp)
  | succ fuel ih =>
    intro visited v p hv hsome
    rw [dfsPath] at hsome
    by_cases hvt : v = t
    · rw [if_pos hvt] at hsome
      obtain hp : [t] = p := Option.some.inj hsome
      subst hp
      subst hvt
      exact ⟨ResPath.nil, List.nodup_singleton v,
        fun x hx => by rw [List.mem_singleton] at hx; rw [hx]; exact hv⟩
    · rw [if_neg hvt] at hsome
      obtain ⟨w, hwmem, hweq⟩ := List.exists_of_findSome?_eq_some hsome
      rw [Option.map_eq_some'] at hweq
      obtain ⟨q, hq, hpq⟩ := hweq
      rw [List.mem_filter] at hwmem
      obtain ⟨hwadj, hwnv⟩ := hwmem
      rw [Bool.not_eq_eq_eq_not, Bool.not_true] at hwnv
      have hwnv' : ¬ w ∈ v :: visited := by
        intro hmem
        have helem : List.elem w (v :: visited) = true := List.elem_iff.mpr hmem
        rw [show ((v :: visited).contains w) = List.elem w (v :: visited)
          from rfl, helem] at hwnv
        simp at hwnv
      unfold resAdj at hwadj
      rw [List.mem_filter, List.mem_range] at hwadj
      obtain ⟨hwn, hres⟩ := hwadj
      rw [decide_eq_true_iff] at hres
      obtain ⟨hpath, hnd, havoid⟩ := ih (v :: visited) w q hwnv' hq
      subst hpq
      refine ⟨ResPath.cons hres hwn hpath, ?_, ?_⟩
      · rw [List.nodup_cons]
        exact ⟨fun hvq => (havoid v hvq) (List.mem_cons_self v visited), hnd⟩
      · intro x hx
        rw [List.mem_cons] at hx
        rcases hx with hx | hx
        · rw [hx]; exact hv
        · exact fun hxv => (havoid x hx) (List.mem_cons_of_mem v hxv)

theorem dfsPath_complete (n : Nat) (res : Nat → Nat → Nat) (t : Nat) :
    ∀ (fuel : Nat) (visited : List Nat) (v : Nat) (p : List Nat),
    ResPath n res t v p → p.Nodup → (∀ x ∈ p, x ∉ visited) →
    p.length ≤ fuel + 1 →
    (dfsPath n res t fuel visited v).isSome = true := by
  intro fuel
  induction fuel with
  | zero =>
    intro visited v p hpath hnd havoid hlen
    cases hpath with
    | nil => rw [dfsPath]; simp
    | @cons v w q hres hwn hq =>
      obtain ⟨rest, hrest⟩ := hq.shape
      subst hrest
      simp at hlen
  | succ fuel ih =>
    intro visited v p hpath hnd havoid hlen
    by_cases hvt : v = t
    · rw [dfsPath, if_pos hvt]; simp
    · cases hpath with
      | nil => exact absurd rfl hvt
      | @cons v w q hres hwn hq =>
        rw [dfsPath, if_neg hvt]
        obtain ⟨rest, hrest⟩ := hq.shape
        have hvq : v ∉ q := (List.nodup_cons.mp hnd).1
        have hndq : q.Nodup := (List.nodup_cons.mp hnd).2
        have hwq : w ∈ q := by rw [hrest]; exact List.mem_cons_self w rest
        have hwv : w ≠ v := fun h => hvq (h ▸ hwq)
        have hwvis : w ∉ visited :=
          havoid w (List.mem_cons_of_mem v hwq)
        have hcand : w ∈ (resAdj n res v).filter
            (fun w => !((v :: visited).contains w)) := by
          rw [List.mem_filter]
          constructor
          · unfold resAdj
            rw [List.mem_filter, List.mem_range]
            exact ⟨hwn, by rw [decide_eq_true_iff]; exact hres⟩
          · rw [Bool.not_eq_eq_eq_not, Bool.not_true]
            rw [show ((v :: visited).contains w) = List.elem w (v :: visited)
              from rfl]
            by_cases hmem : w ∈ v :: visited
            · rw [List.mem_cons] at hmem
              rcases hmem with hmem | hmem
              · exact absurd hmem hwv
              · exact absurd hmem hwvis
            · rw [Bool.eq_false_iff]
              intro helem
              exact hmem (List.elem_iff.mp helem)
        have hsub : (dfsPath n res t fuel (v :: visited) w).isSome = true := by
          apply ih (v :: visited) w q hq hndq
          · intro x hx
            rw [List.mem_cons]
            push_neg
            exact ⟨fun hxv => hvq (hxv ▸ hx),
              havoid x (List.mem_cons_of_mem v hx)⟩
          · have : q.length + 1 = (v :: q).length := rfl
            have hl : (v :: q).length ≤ fuel + 1 + 1 := hlen
            omega
        by_contra hnone
        rw [Option.not_isSome_iff_eq_none, List.findSome?_eq_none] at hnone
        have := hnone w hcand
        rw [show ((dfsPath n res t fuel (v :: visited) w).map
          (fun p => v :: p)) = Option.map (fun p => v :: p)
            (dfsPath n res t fuel (v :: visited) w) from rfl] at this
        rcases hopt : dfsPath n res t fuel (v :: visited) w with _ | q'
        · rw [hopt] at hsub; simp at hsub
        · rw [hopt] at this; simp at this

theorem findPath_sound (n : Nat) (res : Nat → Nat → Nat) (s t : Nat)
    (p : List Nat) (h : findPath n res s t = some p) :
    ResPath n res t s p ∧ p.Nodup := by
  obtain ⟨h1, h2, _⟩ := dfsPath_sound n res t n [] s p
    (List.not_mem_nil s) h
  exact ⟨h1, h2⟩

theorem findPath_complete (n : Nat) (res : Nat → Nat → Nat) (s t : Nat)
    (hs : s < n) (ht : t < n) (h : AugPathExists n res s t) :
    (findPath n res s t).isSome = true := by
  obtain ⟨p, hp⟩ := h
  obtain ⟨q, hq, hnd, hsub⟩ := hp.toNodup
  apply dfsPath_complete n res t n [] s q hq hnd
    (fun x _ => List.not_mem_nil x)
  have hlt : ∀ x ∈ q, x < n := hq.mem_lt hs ht
  have := nodup_length_le n q hnd hlt
  omega

theorem findPath_none_no_path (n : Nat) (res : Nat → Nat → Nat) (s t : Nat)
    (hs : s < n) (ht : t < n) (h : findPath n res s t = none) :
    ¬ AugPathExists n res s t := by
  intro hex
  have := findPath_complete n res s t hs ht hex
  rw [h] at this
  simp at this


theorem augEdge_cutCap (n b : Nat) (res : Nat → Nat → Nat) (u w : Nat)
    (S : Nat → Bool) (hu : u < n) (hw : w < n) (huw : u ≠ w)
    (hb : b ≤ res u w) :
    cutCap n (augEdge b res (u, w)) S + b * psiS S (some u) =
      cutCap n res S + b * psiS S (some w) := by
  have hmemu : u ∈ Finset.range n := Finset.mem_range.mpr hu
  have hmemw : w ∈ Finset.range n := Finset.mem_range.mpr hw
  have hmemw' : w ∈ (Finset.range n).erase u :=
    Finset.mem_erase.mpr ⟨fun h => huw h.symm, hmemw⟩
  have hmemu' : u ∈ (Finset.range n).erase w :=
    Finset.mem_erase.mpr ⟨huw, hmemu⟩
  have houter : ∀ (c : Nat → Nat → Nat),
      cutCap n c S =
        (∑ y ∈ Finset.range n, if S u = true ∧ S y = false then c u y else 0) +
        ((∑ y ∈ Finset.range n, if S w = true ∧ S y = false then c w y else 0) +
          ∑ x ∈ ((Finset.range n).erase u).erase w,
            ∑ y ∈ Finset.range n, if S x = true ∧ S y = false then c x y
              else 0) := by
    intro c
    unfold cutCap
    rw [← Finset.add_sum_erase _ _ hmemu, ← Finset.add_sum_erase _ _ hmemw']
  have hrest : ∑ x ∈ ((Finset.range n).erase u).erase w,
      (∑ y ∈ Finset.range n,
        if S x = true ∧ S y = false then augEdge b res (u, w) x y else 0) =
      ∑ x ∈ ((Finset.range n).erase u).erase w,
      (∑ y ∈ Finset.range n,
        if S x = true ∧ S y = false then res x y else 0) := by
    apply Finset.sum_congr rfl
    intro x hx
    have hxw : x ≠ w := (Finset.mem_erase.mp hx).1
    have hxu : x ≠ u := (Finset.mem_erase.mp (Finset.mem_erase.mp hx).2).1
    apply Finset.sum_congr rfl
    intro y _
    have : augEdge b res (u, w) x y = res x y := by
      unfold augEdge
      rw [if_neg (fun h => hxu h.1), if_neg (fun h => hxw h.1)]
    rw [this]
  have hinner_u : ∀ (c : Nat → Nat → Nat),
      (∑ y ∈ Finset.range n, if S u = true ∧ S y = false then c u y else 0) =
        (if S u = true ∧ S w = false then c u w else 0) +
        ∑ y ∈ (Finset.range n).erase w,
          (if S u = true ∧ S y = false then c u y else 0) := by
    intro c
    rw [← Finset.add_sum_erase _ _ hmemw]
  have hinner_w : ∀ (c : Nat → Nat → Nat),
      (∑ y ∈ Finset.range n, if S w = true ∧ S y = false then c w y else 0) =
        (if S w = true ∧ S u = false then c w u else 0) +
        ∑ y ∈ (Finset.range n).erase u,
          (if S w = true ∧ S y = false then c w y else 0) := by
    intro c
    rw [← Finset.add_sum_erase _ _ hmemu]
  have hrow_u_rest : ∑ y ∈ (Finset.range n).erase w,
      (if S u = true ∧ S y = false then augEdge b res (u, w) u y else 0) =
      ∑ y ∈ (Finset.range n).erase w,
        (if S u = true ∧ S y = false then res u y else 0) := by
    apply Finset.sum_congr rfl
    intro y hy
    have hyw : y ≠ w := (Finset.mem_erase.mp hy).1
    have : augEdge b res (u, w) u y = res u y := by
      unfold augEdge
      rw [if_neg (fun h => hyw h.2), if_neg (fun h => huw h.1)]
    rw [this]
  have hrow_w_rest : ∑ y ∈ (Finset.range n).erase u,
      (if S w = true ∧ S y = false then augEdge b res (u, w) w y else 0) =
      ∑ y ∈ (Finset.range n).erase u,
        (if S w = true ∧ S y = false then res w y else 0) := by
    apply Finset.sum_congr rfl
    intro y hy
    have hyu : y ≠ u := (Finset.mem_erase.mp hy).1
    have : augEdge b res (u, w) w y = res w y := by
      unfold augEdge
      rw [if_neg (fun h => huw h.1.symm), if_neg (fun h => hyu h.2)]
    rw [this]
  have hediag : augEdge b res (u, w) u w = res u w - b := by
    unfold augEdge
    rw [if_pos ⟨rfl, rfl⟩]
  have herev : augEdge b res (u, w) w u = res w u + b := by
    unfold augEdge
    rw [if_neg (fun h => huw h.1.symm), if_pos ⟨rfl, rfl⟩]
  rw [houter (augEdge b res (u, w)), houter res, hrest,
    hinner_u (augEdge b res (u, w)), hinner_u res,
    hinner_w (augEdge b res (u, w)), hinner_w res,
    hrow_u_rest, hrow_w_rest, hediag, herev]
  set A := ∑ y ∈ (Finset.range n).erase w,
    (if S u = true ∧ S y = false then res u y else 0) with hA
  set B := ∑ y ∈ (Finset.range n).erase u,
    (if S w = true ∧ S y = false then res w y else 0) with hB
  set C := ∑ x ∈ ((Finset.range n).erase u).erase w,
    (∑ y ∈ Finset.range n, if S x = true ∧ S y = false then res x y else 0)
    with hC
  clear_value A B C
  cases hSu : S u <;> cases hSw : S w <;>
    simp only [hSu, hSw, psiS] <;> simp <;> omega

theorem augment_cutCap (n b : Nat) (S : Nat → Bool) :
    ∀ (p : List Nat) (res : Nat → Nat → Nat),
    p.Nodup → (∀ x ∈ p, x < n) →
    (∀ e ∈ pathEdges p, b ≤ res e.1 e.2) →
    cutCap n (augment b res p) S + b * psiS S p.head? =
      cutCap n res S + b * psiS S p.getLast? := by
  intro p
  induction p with
  | nil => intro res _ _ _; rfl
  | cons u rest ih =>
    cases rest with
    | nil => intro res _ _ _; rfl
    | cons w rest2 =>
      intro res hnd hlt hble
      have hun : u < n := hlt u (List.mem_cons_self _ _)
      have hwn : w < n :=
        hlt w (List.mem_cons_of_mem _ (List.mem_cons_self _ _))
      have hunw : u ∉ w :: rest2 := (List.nodup_cons.mp hnd).1
      have huw : u ≠ w := fun h => hunw (h ▸ List.mem_cons_self w rest2)
      have hbuw : b ≤ res u w :=
        hble (u, w) (by rw [pathEdges_cons_cons]; exact List.mem_cons_self _ _)
      have hstep := augEdge_cutCap n b res u w S hun hwn huw hbuw
      have hble' : ∀ e ∈ pathEdges (w :: rest2),
          b ≤ augEdge b res (u, w) e.1 e.2 := by
        intro e he
        obtain ⟨he1, he2⟩ := pathEdges_mem (w :: rest2) e he
        have h1 : e.1 ≠ u := fun h => hunw (h ▸ he1)
        have h2 : e.2 ≠ u := fun h => hunw (h ▸ he2)
        have : augEdge b res (u, w) e.1 e.2 = res e.1 e.2 := by
          unfold augEdge
          rw [if_neg (fun h => h1 h.1), if_neg (fun h => h2 h.2)]
        rw [this]
        apply hble e
        rw [pathEdges_cons_cons]
        exact List.mem_cons_of_mem _ he
      have hih := ih (augEdge b res (u, w)) (List.nodup_cons.mp hnd).2
        (fun x hx => hlt x (List.mem_cons_of_mem _ hx)) hble'
      rw [show augment b res (u :: w :: rest2) =
        augment b (augEdge b res (u, w)) (w :: rest2) from rfl]
      rw [show (u :: w :: rest2).head? = some u from rfl]
      rw [List.getLast?_cons_cons]
      rw [show (w :: rest2).head? = some w from rfl] at hih
      set X := b * psiS S (some u) with hX
      set Y := b * psiS S (some w) with hY
      set Z := b * psiS S (w :: rest2).getLast? with hZ
      set A := cutCap n (augment b (augEdge b res (u, w)) (w :: rest2)) S
        with hA
      set B := cutCap n (augEdge b res (u, w)) S with hB
      set C := cutCap n res S with hC
      clear_value X Y Z A B C
      omega

theorem ResPath.edges_ne_nil {n : Nat} {res : Nat → Nat → Nat} {t v : Nat}
    {p : List Nat} (h : ResPath n res t v p) (hvt : v ≠ t) :
    pathEdges p ≠ [] := by
  cases h with
  | nil => exact absurd rfl hvt
  | @cons v w q hres hwn hq =>
    obtain ⟨rest, hrest⟩ := hq.shape
    subst hrest
    rw [pathEdges_cons_cons]
    simp

theorem psiS_some (S : Nat → Bool) (x : Nat) :
    psiS S (some x) = if S x = true then 1 else 0 := rfl

/-- Loop invariant: for every source-sink cut `S`, the flow pushed so far
plus the residual capacity of the cut is constant — each saturation moves
exactly the bottleneck from the cut's residual capacity into the flow. -/
theorem ffLoop_cut (n s t : Nat) (hs : s < n) (ht : t < n) (S : Nat → Bool)
    (hSs : S s = true) (hSt : S t = false) :
    ∀ (fuel : Nat) (res : Nat → Nat → Nat) (flow : Nat),
    (ffLoop n s t fuel res flow).flow +
      cutCap n (ffLoop n s t fuel res flow).res S =
      flow + cutCap n res S := by
  intro fuel
  induction fuel with
  | zero => intro res flow; rfl
  | succ fuel ih =>
    intro res flow
    rcases hfp : findPath n res s t with _ | p
    · rw [ffLoop, hfp]
    · obtain ⟨hpath, hnd⟩ := findPath_sound n res s t p hfp
      by_cases hb : bottleneck res p = 0
      · rw [ffLoop, hfp]
        simp only [hb, if_pos rfl]
        simp
      · rw [ffLoop, hfp]
        simp only [hb, if_false]
        have hlt : ∀ x ∈ p, x < n := hpath.mem_lt hs ht
        have hble := bottleneck_le_edges res p
        have hcut := augment_cutCap n (bottleneck res p) S p res hnd hlt hble
        rw [hpath.head_eq, hpath.last_eq, psiS_some, psiS_some,
          if_pos hSs, if_neg (by rw [hSt]; simp), mul_one, mul_zero,
          add_zero] at hcut
        have hih := ih (augment (bottleneck res p) res p)
          (flow + bottleneck res p)
        set b := bottleneck res p with hbdef
        set A := (ffLoop n s t fuel (augment b res p) (flow + b)).flow
          with hA
        set B := cutCap n (ffLoop n s t fuel (augment b res p)
          (flow + b)).res S with hB
        set C := cutCap n (augment b res p) S with hC
        set D := cutCap n res S with hD
        clear_value A B C D
        omega

/-- With a budget exceeding the source cut's capacity, the loop always
stops because the search finds no augmenting path, not because the budget
runs out: each round pushes at least one unit of flow. -/
theorem ffLoop_clean (n s t : Nat) (hs : s < n) (ht : t < n) (hst : s ≠ t) :
    ∀ (fuel : Nat) (res : Nat → Nat → Nat) (flow : Nat),
    cutCap n res (fun v => v == s) < fuel →
    (ffLoop n s t fuel res flow).clean = true := by
  intro fuel
  induction fuel with
  | zero => intro res flow hcut; omega
  | succ fuel ih =>
    intro res flow hcut
    rcases hfp : findPath n res s t with _ | p
    · rw [ffLoop, hfp]
    · obtain ⟨hpath, hnd⟩ := findPath_sound n res s t p hfp
      have hbpos : 0 < bottleneck res p :=
        bottleneck_pos res p (hpath.edges_ne_nil hst) hpath.edges_pos
      rw [ffLoop, hfp]
      simp only [show ¬ bottleneck res p = 0 from by omega, if_false]
      apply ih
      have hlt : ∀ x ∈ p, x < n := hpath.mem_lt hs ht
      have hble := bottleneck_le_edges res p
      have hcut2 := augment_cutCap n (bottleneck res p) (fun v => v == s)
        p res hnd hlt hble
      rw [hpath.head_eq, hpath.last_eq, psiS_some, psiS_some,
        if_pos (by simp),
        if_neg (by simp; exact fun h => hst h.symm), mul_one, mul_zero,
        add_zero] at hcut2
      set b := bottleneck res p with hbdef
      set C := cutCap n (augment b res p) (fun v => v == s) with hC
      set D := cutCap n res (fun v => v == s) with hD
      clear_value C D
      omega

/-- When the loop stops cleanly, its final residual graph is exactly the
one in which the search found no augmenting path. -/
theorem ffLoop_final_nopath (n s t : Nat) :
    ∀ (fuel : Nat) (res : Nat → Nat → Nat) (flow : Nat),
    (ffLoop n s t fuel res flow).clean = true →
    findPath n (ffLoop n s t fuel res flow).res s t = none := by
  intro fuel
  induction fuel with
  | zero => intro res flow hclean; simp [ffLoop] at hclean
  | succ fuel ih =>
    intro res flow hclean
    rcases hfp : findPath n res s t with _ | p
    · rw [ffLoop, hfp]
      rw [ffLoop, hfp] at hclean
      exact hfp
    · by_cases hb : bottleneck res p = 0
      · rw [ffLoop, hfp] at hclean
        simp only [hb, if_pos rfl] at hclean
        simp at hclean
      · rw [ffLoop, hfp] at hclean ⊢
        simp only [hb, if_false] at hclean ⊢
        exact ih _ _ hclean

/-- Claim C4: on a flow network (no edge `(u,v)` coexisting with `(v,u)`)
with in-range distinct source and sink, the max-flow computation proceeds
by repeated augmenting-path saturation rounds and terminates within its
bounded round budget because no augmenting path remains (the loop exits
cleanly and the final residual graph admits no augmenting path), and the
returned flow value is at most the capacity of every source-sink cut —
hence at most the minimum cut capacity. -/
theorem maxflow_augmenting_rounds (g : graph_t) (s t : Nat)
    (hwf : WFgraph g) (hfn : FlowNetwork g)
    (hs : s < g.vertex_count) (ht : t < g.vertex_count) (hst : s ≠ t) :
    maxflow_cpu g s t = Except.ok (maxflowFull g s t).flow ∧
      (maxflowFull g s t).clean = true ∧
      (¬ AugPathExists g.vertex_count (maxflowFull g s t).res s t) ∧
      (∀ S : Nat → Bool, S s = true → S t = false →
        (maxflowFull g s t).flow ≤ cutCap g.vertex_count (capOf g) S) := by
  have hclean : (maxflowFull g s t).clean = true := by
    unfold maxflowFull
    apply ffLoop_clean g.vertex_count s t hs ht hst
    unfold ffFuel
    omega
  refine ⟨?_, hclean, ?_, ?_⟩
  · unfold maxflow_cpu
    rw [if_pos ⟨hs, ht⟩]
  · apply findPath_none_no_path g.vertex_count _ s t hs ht
    unfold maxflowFull at hclean ⊢
    exact ffLoop_final_nopath g.vertex_count s t _ _ _ hclean
  · intro S hSs hSt
    have hinv := ffLoop_cut g.vertex_count s t hs ht S hSs hSt
      (ffFuel g s) (capOf g) 0
    unfold maxflowFull
    set F := (ffLoop g.vertex_count s t (ffFuel g s) (capOf g) 0).flow
      with hF
    set X := cutCap g.vertex_count
      (ffLoop g.vertex_count s t (ffFuel g s) (capOf g) 0).res S with hX
    set Y := cutCap g.vertex_count (capOf g) S with hY
    clear_value F X Y
    omega

/-- Witness for C4 on a 4-vertex diamond flow network. -/
theorem maxflow_augmenting_rounds_witness :
    WFgraph ⟨4, true, [[1, 2], [3], [3], []], [[2, 3], [2], [1], []]⟩ ∧
      FlowNetwork ⟨4, true, [[1, 2], [3], [3], []], [[2, 3], [2], [1], []]⟩ ∧
      0 < 4 ∧ 3 < 4 ∧ (0 : Nat) ≠ 3 ∧
      (maxflow_cpu ⟨4, true, [[1, 2], [3], [3], []], [[2, 3], [2], [1], []]⟩
          0 3 =
        Except.ok (maxflowFull
          ⟨4, true, [[1, 2], [3], [3], []], [[2, 3], [2], [1], []]⟩ 0 3).flow ∧
        (maxflowFull ⟨4, true, [[1, 2], [3], [3], []],
          [[2, 3], [2], [1], []]⟩ 0 3).clean = true ∧
        (¬ AugPathExists 4 (maxflowFull ⟨4, true, [[1, 2], [3], [3], []],
          [[2, 3], [2], [1], []]⟩ 0 3).res 0 3) ∧
        (∀ S : Nat → Bool, S 0 = true → S 3 = false →
          (maxflowFull ⟨4, true, [[1, 2], [3], [3], []],
            [[2, 3], [2], [1], []]⟩ 0 3).flow ≤
            cutCap 4 (capOf ⟨4, true, [[1, 2], [3], [3], []],
              [[2, 3], [2], [1], []]⟩) S)) :=
  ⟨by decide, by decide, by decide, by decide, by decide,
    maxflow_augmenting_rounds
      ⟨4, true, [[1, 2], [3], [3], []], [[2, 3], [2], [1], []]⟩ 0 3
      (by decide) (by decide) (by decide) (by decide) (by decide)⟩
